import Mathlib

/-
  Verification development for the PloneVoteCryptoLib threshold-ElGamal
  library (svelib).  The Python source is shallowly embedded: big integers
  become Nat (with explicit % p where the source reduces), bit streams become
  List Bool (the BitStream utility's external interface: big-endian fixed
  width reads and writes), fallible code returns Except, and randomness
  (Crypto.Random StrongRandom draws) and the external SHA256 hash become
  explicit parameters.
-/

namespace PVC

/-- Kinds of Python exceptions raised by the embedded code paths.  Distinct
constructors keep distinct raise sites distinguishable. -/
inductive PyErr where
  /-- ValueError raised by PublicKey.encrypt_bitstream for messages of 2^64
  bits or more. -/
  | valueErrorMessageTooLarge : PyErr
  /-- The dedicated MessageToLongError exception defined in PublicKey.py
  (never actually raised by the source; present for comparison). -/
  | messageToLongError : PyErr
  /-- ValueError raised by BitStream.put_num when the number does not fit the
  requested bit length. -/
  | valueErrorPutNum : PyErr
  /-- ValueError raised by BitStream.get_string for a length that is not a
  multiple of eight. -/
  | valueErrorStringLength : PyErr
  /-- NotEnoughBitsInStreamError raised by BitStream reads. -/
  | notEnoughBits : PyErr
  /-- IncompatibleCiphertextError. -/
  | incompatibleCiphertext : PyErr
  /-- IncompatibleCiphertextCollectionError. -/
  | incompatibleCollection : PyErr
  /-- A failed Python assert statement. -/
  | assertionFailure : PyErr
  /-- ThresholdEncryptionSetUpStateError. -/
  | stateError : PyErr
  /-- InsuficientPartialDecryptionsError (spelling as in the source). -/
  | insufficientPartialDecryptions : PyErr
  /-- InvalidPartialDecryptionProofError. -/
  | invalidProof : PyErr
  /-- ValueError raised for a trustee index out of range. -/
  | invalidTrusteeIndex : PyErr
  /-- Python IndexError from list indexing or assignment. -/
  | indexError : PyErr
  /-- Python AttributeError or TypeError from using None as an object. -/
  | noneTypeError : PyErr
  deriving Repr, DecidableEq

/-- Modular exponentiation, Python pow(a, e, p). -/
def powMod (a e p : Nat) : Nat := a ^ e % p

/-- Big-endian bit representation of a number in a fixed width, as written by
BitStream.put_num. -/
def natToBits : Nat → Nat → List Bool
  | 0, _ => []
  | w + 1, n => natToBits w (n / 2) ++ [n % 2 == 1]

/-- The number encoded by a big-endian list of bits, as read by
BitStream.get_num. -/
def bitsToNat (l : List Bool) : Nat :=
  l.foldl (fun acc b => 2 * acc + (if b then 1 else 0)) 0

theorem length_natToBits (w n : Nat) : (natToBits w n).length = w := by
  induction w generalizing n with
  | zero => rfl
  | succ w ih => simp [natToBits, ih]

theorem bitsToNat_foldl (l : List Bool) (a : Nat) :
    l.foldl (fun acc b => 2 * acc + (if b then 1 else 0)) a =
      a * 2 ^ l.length + bitsToNat l := by
  induction l generalizing a with
  | nil => simp [bitsToNat]
  | cons b tl ih =>
    simp only [List.foldl_cons, bitsToNat, List.length_cons]
    rw [ih, ih (2 * 0 + _)]
    ring

theorem bitsToNat_append (l₁ l₂ : List Bool) :
    bitsToNat (l₁ ++ l₂) = bitsToNat l₁ * 2 ^ l₂.length + bitsToNat l₂ := by
  unfold bitsToNat
  rw [List.foldl_append, bitsToNat_foldl]
  rfl

theorem bitsToNat_lt (l : List Bool) : bitsToNat l < 2 ^ l.length := by
  induction l with
  | nil => simp [bitsToNat]
  | cons b tl ih =>
    have h := bitsToNat_append [b] tl
    simp only [List.singleton_append] at h
    rw [h]
    have hb : bitsToNat [b] ≤ 1 := by cases b <;> simp [bitsToNat]
    calc bitsToNat [b] * 2 ^ tl.length + bitsToNat tl
        ≤ 1 * 2 ^ tl.length + bitsToNat tl := by
          exact Nat.add_le_add_right (Nat.mul_le_mul_right _ hb) _
      _ < 1 * 2 ^ tl.length + 2 ^ tl.length := by
          exact Nat.add_lt_add_left ih _
      _ = 2 ^ (b :: tl).length := by
          simp [List.length_cons, Nat.pow_succ]; ring

theorem bitsToNat_natToBits (w n : Nat) (h : n < 2 ^ w) :
    bitsToNat (natToBits w n) = n := by
  induction w generalizing n with
  | zero =>
    interval_cases n
    rfl
  | succ w ih =>
    simp only [natToBits]
    rw [bitsToNat_append]
    have h2 : n / 2 < 2 ^ w := by
      rw [Nat.div_lt_iff_lt_mul (by norm_num)]
      calc n < 2 ^ (w + 1) := h
        _ = 2 ^ w * 2 := by rw [Nat.pow_succ]
    rw [ih _ h2]
    have : bitsToNat [n % 2 == 1] = n % 2 := by
      rcases Nat.mod_two_eq_zero_or_one n with h0 | h1
      · simp [h0, bitsToNat]
      · simp [h1, bitsToNat]
    simp only [List.length_singleton, this, pow_one]
    omega

theorem natToBits_bitsToNat (l : List Bool) :
    natToBits l.length (bitsToNat l) = l := by
  induction l using List.reverseRecOn with
  | nil => rfl
  | append_singleton tl b ih =>
    rw [bitsToNat_append]
    simp only [List.length_append, List.length_singleton, natToBits]
    have hb : bitsToNat [b] = if b then 1 else 0 := by
      cases b <;> simp [bitsToNat]
    have hdiv :
        (bitsToNat tl * 2 ^ (1:Nat) + bitsToNat [b]) / 2 = bitsToNat tl := by
      rw [hb]; cases b <;> simp [pow_one] <;> omega
    have hmod :
        ((bitsToNat tl * 2 ^ (1:Nat) + bitsToNat [b]) % 2 == 1) = b := by
      rw [hb]; cases b <;> simp [pow_one, Nat.add_mul_mod_self_left] <;> omega
    rw [hdiv, hmod, ih]

theorem natToBits_split (w₁ w₂ a b : Nat) (ha : a < 2 ^ w₁) (hb : b < 2 ^ w₂) :
    natToBits (w₁ + w₂) (a * 2 ^ w₂ + b) = natToBits w₁ a ++ natToBits w₂ b := by
  have hlen : (natToBits w₁ a ++ natToBits w₂ b).length = w₁ + w₂ := by
    simp [length_natToBits]
  have hval : bitsToNat (natToBits w₁ a ++ natToBits w₂ b) = a * 2 ^ w₂ + b := by
    rw [bitsToNat_append, bitsToNat_natToBits _ _ ha, bitsToNat_natToBits _ _ hb,
      length_natToBits]
  calc natToBits (w₁ + w₂) (a * 2 ^ w₂ + b)
      = natToBits (natToBits w₁ a ++ natToBits w₂ b).length
          (bitsToNat (natToBits w₁ a ++ natToBits w₂ b)) := by rw [hlen, hval]
    _ = natToBits w₁ a ++ natToBits w₂ b := natToBits_bitsToNat _

/-- BitStream.put_num: append a number in the given bit width, raising
ValueError when it does not fit (the width check of the source). -/
def put_num (bs : List Bool) (num bitLength : Nat) : Except PyErr (List Bool) :=
  if 2 ^ bitLength ≤ num then .error .valueErrorPutNum
  else .ok (bs ++ natToBits bitLength num)

/-- BitStream.get_num at a given position: read bitLength bits as a number,
raising NotEnoughBitsInStreamError when the stream is too short. -/
def get_num (bs : List Bool) (pos bitLength : Nat) : Except PyErr Nat :=
  if bs.length < pos + bitLength then .error .notEnoughBits
  else .ok (bitsToNat ((bs.drop pos).take bitLength))

/-- BitStream.put_string: append the bytes of a string, one put_num of width 8
per character. -/
def put_string (bs : List Bool) (bytes : List Nat) : Except PyErr (List Bool) :=
  match bytes with
  | [] => .ok bs
  | byte :: tl => do
    let bs2 ← put_num bs byte 8
    put_string bs2 tl

/-- Byte-reading loop of BitStream.get_string, structurally recursive on a
fuel bound (any fuel at least the list length gives the loop's value). -/
def bitsToBytesGo : Nat → List Bool → List Nat
  | _, [] => []
  | 0, _ :: _ => []
  | fuel + 1, l => bitsToNat (l.take 8) :: bitsToBytesGo fuel (l.drop 8)

/-- Decode a bit list as a byte sequence, eight bits per byte, as
BitStream.get_string reads it. -/
def bitsToBytes (l : List Bool) : List Nat :=
  bitsToBytesGo l.length l

/-- BitStream.get_string at a given position: read bitLength bits as bytes,
with the source's multiple-of-eight and availability checks. -/
def get_string (bs : List Bool) (pos bitLength : Nat) : Except PyErr (List Nat) :=
  if bs.length < pos + bitLength then .error .notEnoughBits
  else if bitLength % 8 ≠ 0 then .error .valueErrorStringLength
  else .ok (bitsToBytes ((bs.drop pos).take bitLength))

/-- The bit encoding of a byte string as put_string appends it. -/
def bytesToBits (bytes : List Nat) : List Bool :=
  bytes.flatMap (natToBits 8)

theorem put_string_ok (bs : List Bool) (bytes : List Nat)
    (h : ∀ b ∈ bytes, b < 256) :
    put_string bs bytes = .ok (bs ++ bytesToBits bytes) := by
  induction bytes generalizing bs with
  | nil => simp [put_string, bytesToBits]
  | cons byte tl ih =>
    have hb : byte < 256 := h byte (List.mem_cons_self _ _)
    have htl : ∀ b ∈ tl, b < 256 := fun b hbtl => h b (List.mem_cons_of_mem _ hbtl)
    have hput : put_num bs byte 8 = .ok (bs ++ natToBits 8 byte) := by
      unfold put_num; rw [if_neg (by omega)]
    simp only [put_string, hput, bind, Except.bind]
    rw [ih _ htl]
    simp [bytesToBits, List.append_assoc]

theorem bitsToBytesGo_bytesToBits (bytes : List Nat) : ∀ fuel : Nat,
    (∀ b ∈ bytes, b < 256) → (bytesToBits bytes).length ≤ fuel →
    bitsToBytesGo fuel (bytesToBits bytes) = bytes := by
  induction bytes with
  | nil =>
    intro fuel _ _
    simp [bytesToBits, bitsToBytesGo]
  | cons byte tl ih =>
    intro fuel h hfuel
    have hb : byte < 256 := h byte (List.mem_cons_self _ _)
    have htl : ∀ b ∈ tl, b < 256 := fun b hbtl => h b (List.mem_cons_of_mem _ hbtl)
    have hflat : bytesToBits (byte :: tl) = natToBits 8 byte ++ bytesToBits tl := by
      simp [bytesToBits]
    have hlen8 : (natToBits 8 byte).length = 8 := length_natToBits _ _
    have hlen : (bytesToBits (byte :: tl)).length = 8 + (bytesToBits tl).length := by
      rw [hflat]; simp [hlen8]
    rcases fuel with _ | f
    · omega
    rw [hflat] at hfuel ⊢
    have hne : ∃ hd tl2, natToBits 8 byte ++ bytesToBits tl = hd :: tl2 := by
      rcases hcons : natToBits 8 byte ++ bytesToBits tl with _ | ⟨hd, tl2⟩
      · have := congrArg List.length hcons
        simp [hlen8] at this
      · exact ⟨hd, tl2, rfl⟩
    obtain ⟨hd, tl2, hcons⟩ := hne
    rw [hcons, show bitsToBytesGo (f + 1) (hd :: tl2) =
        bitsToNat ((hd :: tl2).take 8) :: bitsToBytesGo f ((hd :: tl2).drop 8)
        from rfl, ← hcons]
    have htake : (natToBits 8 byte ++ bytesToBits tl).take 8 = natToBits 8 byte :=
      List.take_left' hlen8
    have hdrop : (natToBits 8 byte ++ bytesToBits tl).drop 8 = bytesToBits tl :=
      List.drop_left' hlen8
    rw [htake, hdrop, bitsToNat_natToBits _ _ (by simpa using hb),
      ih f htl (by simp [hlen8] at hfuel ⊢; omega)]

theorem bitsToBytes_bytesToBits (bytes : List Nat) (h : ∀ b ∈ bytes, b < 256) :
    bitsToBytes (bytesToBits bytes) = bytes :=
  bitsToBytesGo_bytesToBits bytes _ h (le_refl _)

/-! Ciphertext.py: a ciphertext is a bit size, the fingerprint of the public
key that produced it, and the ordered gamma/delta block pairs (the source
keeps two aligned lists of equal length; pairs carry the same data).
Fingerprints are SHA256 digests computed by the external pycrypto library;
they are embedded as opaque Nat tokens, equal tokens standing for the digest
of equal inputs. -/

structure Ciphertext where
  nbits : Nat
  pk_fingerprint : Nat
  blocks : List (Nat × Nat)
  deriving Repr, DecidableEq

/-- The gamma components list of a ciphertext. -/
def Ciphertext.gamma (ct : Ciphertext) : List Nat := ct.blocks.map Prod.fst

/-- The delta components list of a ciphertext. -/
def Ciphertext.delta (ct : Ciphertext) : List Nat := ct.blocks.map Prod.snd

/-- Ciphertext.__eq__: same bit size, public key fingerprint, gamma list and
delta list. -/
def ciphertextEq (a b : Ciphertext) : Bool :=
  a.nbits == b.nbits && a.pk_fingerprint == b.pk_fingerprint &&
    a.gamma == b.gamma && a.delta == b.delta

theorem ciphertextEq_iff (a b : Ciphertext) : ciphertextEq a b = true ↔ a = b := by
  constructor
  · intro h
    simp only [ciphertextEq, Bool.and_eq_true, beq_iff_eq] at h
    obtain ⟨⟨⟨h1, h2⟩, h3⟩, h4⟩ := h
    have hblocks : a.blocks = b.blocks := by
      have hga := congrArg List.length h3
      simp only [Ciphertext.gamma, List.length_map] at hga
      apply List.ext_getElem (by exact hga)
      intro i hia hib
      have hg : a.blocks[i].1 = b.blocks[i].1 := by
        have := congrArg (fun l => l[i]?) h3
        simpa [Ciphertext.gamma, List.getElem?_map,
          List.getElem?_eq_getElem, hia, hib] using this
      have hd : a.blocks[i].2 = b.blocks[i].2 := by
        have := congrArg (fun l => l[i]?) h4
        simpa [Ciphertext.delta, List.getElem?_map,
          List.getElem?_eq_getElem, hia, hib] using this
      exact Prod.ext hg hd
    cases a; cases b
    simp_all
  · intro h; subst h; simp [ciphertextEq]

/-! PublicKey.encrypt_bitstream (PublicKey.py).  The random draws of the
source (StrongRandom.randint) are passed in explicitly: padDraws gives the
successive randint(1, 2^w) padding draws, fill the randint(0,
2^displacement - 1) draw completing the last partial block, and ks the
successive ephemeral keys randint(1, p - 2), one per block. -/

/-- The padding loop of encrypt_bitstream, structurally recursive on a fuel
bound: fill the stream with random bits, 1024 at a time, until the desired
length is reached.  Any fuel at least the number of remaining padding bits
gives the loop's value; exhausted fuel (unreachable from padLoop) maps to an
assertion failure. -/
def padLoopGo (padDraws : Nat → Nat) : Nat → Nat → List Bool → Nat →
    Except PyErr (List Bool)
  | 0, idx, bs, left =>
    if 1024 < left then .error .assertionFailure
    else if 0 < left then put_num bs (padDraws idx) left
    else .ok bs
  | fuel + 1, idx, bs, left =>
    if 1024 < left then do
      let bs2 ← put_num bs (padDraws idx) 1024
      padLoopGo padDraws fuel (idx + 1) bs2 (left - 1024)
    else if 0 < left then put_num bs (padDraws idx) left
    else .ok bs

/-- The padding loop of encrypt_bitstream. -/
def padLoop (padDraws : Nat → Nat) (idx : Nat) (bs : List Bool) (left : Nat) :
    Except PyErr (List Bool) :=
  padLoopGo padDraws left idx bs left

/-- The block encryption loop of encrypt_bitstream: pull blockSize bits at a
time, lift the last partial block with random fill bits, and encrypt each
block m as (g^k mod p, m y^k mod p).  The source's while loop cannot leave
blockSize = 0 (nbits is at least the minimum key size); that impossible case
is mapped to an assertion failure to keep the function total. -/
def encryptBlocksGo (p g y blockSize : Nat) (ks : Nat → Nat) (fill : Nat) :
    Nat → Nat → List Bool → Except PyErr (List (Nat × Nat))
  | 0, idx, bits =>
    if bits = [] then .ok []
    else if blockSize = 0 then .error .assertionFailure
    else if blockSize ≤ bits.length then .error .assertionFailure
    else
      let displacement := blockSize - bits.length
      if fill / 2 ^ displacement ≠ 0 then .error .assertionFailure
      else
        let block := (bitsToNat bits) <<< displacement ||| fill
        let k := ks idx
        .ok [(powMod g k p, block * powMod y k p % p)]
  | fuel + 1, idx, bits =>
    if bits = [] then .ok []
    else if blockSize = 0 then .error .assertionFailure
    else if blockSize ≤ bits.length then
      let block := bitsToNat (bits.take blockSize)
      let k := ks idx
      match encryptBlocksGo p g y blockSize ks fill fuel (idx + 1)
          (bits.drop blockSize) with
      | .error e => .error e
      | .ok tl => .ok ((powMod g k p, block * powMod y k p % p) :: tl)
    else
      let displacement := blockSize - bits.length
      if fill / 2 ^ displacement ≠ 0 then .error .assertionFailure
      else
        let block := (bitsToNat bits) <<< displacement ||| fill
        let k := ks idx
        .ok [(powMod g k p, block * powMod y k p % p)]

/-- The block encryption loop of encrypt_bitstream (see encryptBlocksGo; the
fuel bound bits.length always suffices since each full block consumes at
least one bit). -/
def encryptBlocks (p g y blockSize : Nat) (ks : Nat → Nat) (fill : Nat)
    (idx : Nat) (bits : List Bool) : Except PyErr (List (Nat × Nat)) :=
  encryptBlocksGo p g y blockSize ks fill bits.length idx bits

/-- PublicKey.encrypt_bitstream: format the plaintext as
[64-bit length | message | random padding], then encrypt block by block. -/
def encrypt_bitstream (p g y nbits : Nat) (fingerprint : Nat) (bits : List Bool)
    (padTo : Option Nat) (padDraws : Nat → Nat) (ks : Nat → Nat) (fill : Nat) :
    Except PyErr Ciphertext :=
  if 2 ^ 64 ≤ bits.length then .error .valueErrorMessageTooLarge
  else do
    let fs0 ← put_num [] bits.length 64
    let fs1 := fs0 ++ bits
    let unpadded := fs1.length
    let full :=
      match padTo with
      | some pt => if unpadded < pt * 8 then pt * 8 else unpadded
      | none => unpadded
    let fs2 ← padLoop padDraws 0 fs1 (full - unpadded)
    let blocks ← encryptBlocks p g y (nbits - 1) ks fill 0 fs2
    return ⟨nbits, fingerprint, blocks⟩

/-- PublicKey.encrypt_text: encode the string as bytes into a bitstream, then
encrypt the bitstream. -/
def encrypt_text (p g y nbits : Nat) (fingerprint : Nat) (text : List Nat)
    (padTo : Option Nat) (padDraws : Nat → Nat) (ks : Nat → Nat) (fill : Nat) :
    Except PyErr Ciphertext := do
  let bits ← put_string [] text
  encrypt_bitstream p g y nbits fingerprint bits padTo padDraws ks fill

/-- The block decryption loop of PrivateKey.decrypt_to_bitstream: for each
block compute m = gamma^(p-1-x) delta mod p and append it in blockSize bits,
after the source's size assertion on the block components. -/
def decryptBlocks (p x blockSize : Nat) (blocks : List (Nat × Nat))
    (acc : List Bool) : Except PyErr (List Bool) :=
  match blocks with
  | [] => .ok acc
  | (gamma, delta) :: tl =>
    if 2 ^ (blockSize + 1) ≤ max gamma delta then .error .assertionFailure
    else do
      let acc2 ← put_num acc (powMod gamma (p - 1 - x) p * delta % p) blockSize
      decryptBlocks p x blockSize tl acc2

/-- PrivateKey.decrypt_to_bitstream: unless force, check bit size and public
key fingerprint compatibility, then decrypt block by block. -/
def decrypt_to_bitstream (p x nbits : Nat) (fingerprint : Nat) (ct : Ciphertext)
    (force : Bool) : Except PyErr (List Bool) :=
  if ¬force ∧ ct.nbits ≠ nbits then .error .incompatibleCiphertext
  else if ¬force ∧ ct.pk_fingerprint ≠ fingerprint then
    .error .incompatibleCiphertext
  else decryptBlocks p x (nbits - 1) ct.blocks []

/-- PrivateKey.decrypt_to_text: decrypt to a bitstream, read the 64-bit
length, then read that many bits as a string. -/
def decrypt_to_text (p x nbits : Nat) (fingerprint : Nat) (ct : Ciphertext)
    (force : Bool) : Except PyErr (List Nat) := do
  let bs ← decrypt_to_bitstream p x nbits fingerprint ct force
  let len ← get_num bs 0 64
  get_string bs 64 len

theorem mul_pow_lor_eq_add (d : Nat) : ∀ a b : Nat, b < 2 ^ d →
    (a * 2 ^ d ||| b) = a * 2 ^ d + b := by
  induction d with
  | zero =>
    intro a b hb
    interval_cases b
    simp
  | succ d ih =>
    intro a b hb
    have hkey : ∀ u v : Nat, ∀ c : Bool,
        ((2 * u) ||| Nat.bit c v) = Nat.bit c (u ||| v) := by
      intro u v c
      have h0 : 2 * u = Nat.bit false u := by simp [Nat.bit_val]
      rw [h0, Nat.lor_bit]
      simp
    have hv : b / 2 < 2 ^ d := by
      rw [Nat.div_lt_iff_lt_mul (by norm_num)]
      calc b < 2 ^ (d + 1) := hb
        _ = 2 ^ d * 2 := by rw [Nat.pow_succ]
    have hsplit : b = 2 * (b / 2) + b % 2 := by omega
    have hpow : a * 2 ^ (d + 1) = 2 * (a * 2 ^ d) := by ring
    rcases Nat.mod_two_eq_zero_or_one b with h0 | h1
    · have hb' : b = Nat.bit false (b / 2) := by simp [Nat.bit_val]; omega
      rw [hpow, hb', hkey, ih _ _ hv]
      simp [Nat.bit_val]
      ring
    · have hb' : b = Nat.bit true (b / 2) := by simp [Nat.bit_val]; omega
      rw [hpow, hb', hkey, ih _ _ hv]
      simp [Nat.bit_val]
      ring

/-- The ElGamal round-trip on one block: decrypting
(g^k mod p, m y^k mod p) with gamma^(p-1-x) delta mod p recovers m, for
y = g^x mod p, p prime, g not a multiple of p, x at most p - 1 and m below p. -/
theorem elgamal_block (p g x k m : Nat) (hp : p.Prime) (hg : ¬ p ∣ g)
    (hx : x ≤ p - 1) (hm : m < p) :
    powMod (powMod g k p) (p - 1 - x) p *
      (m * powMod (powMod g x p) k p % p) % p = m := by
  haveI : Fact p.Prime := ⟨hp⟩
  have hp1 : 1 < p := hp.one_lt
  have hgz : (g : ZMod p) ≠ 0 := by
    rw [Ne, ZMod.natCast_zmod_eq_zero_iff_dvd]
    exact hg
  have hcast :
      ((powMod (powMod g k p) (p - 1 - x) p *
        (m * powMod (powMod g x p) k p % p) % p : Nat) : ZMod p) = (m : ZMod p) := by
    push_cast [powMod, ZMod.natCast_mod]
    rw [← pow_mul, ← pow_mul]
    have hexp : k * (p - 1 - x) + x * k = k * (p - 1) := by
      have : p - 1 - x + x = p - 1 := by omega
      calc k * (p - 1 - x) + x * k = k * ((p - 1 - x) + x) := by ring
        _ = k * (p - 1) := by rw [this]
    calc (g : ZMod p) ^ (k * (p - 1 - x)) * ((m : ZMod p) * (g : ZMod p) ^ (x * k))
        = (m : ZMod p) * (g : ZMod p) ^ (k * (p - 1 - x) + x * k) := by
          rw [pow_add]; ring
      _ = (m : ZMod p) * ((g : ZMod p) ^ (p - 1)) ^ k := by
          rw [hexp, mul_comm k (p - 1), pow_mul]
      _ = (m : ZMod p) := by
          rw [ZMod.pow_card_sub_one_eq_one hgz, one_pow, mul_one]
  have hlt : powMod (powMod g k p) (p - 1 - x) p *
      (m * powMod (powMod g x p) k p % p) % p < p := Nat.mod_lt _ (by omega)
  have := congrArg ZMod.val hcast
  rwa [ZMod.val_natCast_of_lt hlt, ZMod.val_natCast_of_lt hm] at this

theorem put_string_ok_inv (bytes : List Nat) : ∀ bs out : List Bool,
    put_string bs bytes = .ok out →
    (∀ b ∈ bytes, b < 256) ∧ out = bs ++ bytesToBits bytes := by
  induction bytes with
  | nil =>
    intro bs out h
    simp only [put_string] at h
    cases h
    simp [bytesToBits]
  | cons byte tl ih =>
    intro bs out h
    simp only [put_string] at h
    by_cases hb : 2 ^ 8 ≤ byte
    · rw [show put_num bs byte 8 = .error .valueErrorPutNum from by
        unfold put_num; rw [if_pos hb]] at h
      exact absurd h (by simp [bind, Except.bind])
    · rw [show put_num bs byte 8 = .ok (bs ++ natToBits 8 byte) from by
        unfold put_num; rw [if_neg hb]] at h
      simp only [bind, Except.bind] at h
      obtain ⟨htl, hout⟩ := ih _ _ h
      refine ⟨?_, ?_⟩
      · intro b hbmem
        rcases List.mem_cons.mp hbmem with rfl | hmem
        · omega
        · exact htl _ hmem
      · rw [hout]
        simp [bytesToBits, List.append_assoc]

theorem padLoopGo_zero (padDraws : Nat → Nat) (idx : Nat) (bs : List Bool)
    (left : Nat) :
    padLoopGo padDraws 0 idx bs left =
      if 1024 < left then .error .assertionFailure
      else if 0 < left then put_num bs (padDraws idx) left
      else .ok bs := rfl

theorem padLoopGo_succ (padDraws : Nat → Nat) (f idx : Nat) (bs : List Bool)
    (left : Nat) :
    padLoopGo padDraws (f + 1) idx bs left =
      if 1024 < left then do
        let bs2 ← put_num bs (padDraws idx) 1024
        padLoopGo padDraws f (idx + 1) bs2 (left - 1024)
      else if 0 < left then put_num bs (padDraws idx) left
      else .ok bs := rfl

theorem padLoopGo_ok_shape (padDraws : Nat → Nat) :
    ∀ fuel left idx bs out, padLoopGo padDraws fuel idx bs left = .ok out →
      ∃ extra, out = bs ++ extra := by
  intro fuel
  induction fuel with
  | zero =>
    intro left idx bs out h
    rw [padLoopGo_zero] at h
    by_cases h1 : 1024 < left
    · rw [if_pos h1] at h; cases h
    · rw [if_neg h1] at h
      by_cases h0 : 0 < left
      · rw [if_pos h0] at h
        unfold put_num at h
        by_cases hd : 2 ^ left ≤ padDraws idx
        · rw [if_pos hd] at h; cases h
        · rw [if_neg hd] at h
          cases h
          exact ⟨natToBits left (padDraws idx), rfl⟩
      · rw [if_neg h0] at h
        cases h
        exact ⟨[], by simp⟩
  | succ f ih =>
    intro left idx bs out h
    rw [padLoopGo_succ] at h
    by_cases h1 : 1024 < left
    · rw [if_pos h1] at h
      by_cases hd : 2 ^ 1024 ≤ padDraws idx
      · rw [show put_num bs (padDraws idx) 1024 = .error .valueErrorPutNum from by
          unfold put_num; rw [if_pos hd]] at h
        exact absurd h (by simp [bind, Except.bind])
      · rw [show put_num bs (padDraws idx) 1024 =
            .ok (bs ++ natToBits 1024 (padDraws idx)) from by
          unfold put_num; rw [if_neg hd]] at h
        simp only [bind, Except.bind] at h
        obtain ⟨extra, hout⟩ := ih _ _ _ _ h
        exact ⟨natToBits 1024 (padDraws idx) ++ extra, by
          rw [hout, List.append_assoc]⟩
    · rw [if_neg h1] at h
      by_cases h0 : 0 < left
      · rw [if_pos h0] at h
        unfold put_num at h
        by_cases hd : 2 ^ left ≤ padDraws idx
        · rw [if_pos hd] at h; cases h
        · rw [if_neg hd] at h
          cases h
          exact ⟨natToBits left (padDraws idx), rfl⟩
      · rw [if_neg h0] at h
        cases h
        exact ⟨[], by simp⟩

theorem padLoop_ok_shape (padDraws : Nat → Nat) :
    ∀ left idx bs out, padLoop padDraws idx bs left = .ok out →
      ∃ extra, out = bs ++ extra :=
  fun left idx bs out h => padLoopGo_ok_shape padDraws left left idx bs out h

/-- Decrypting the single block produced by the last-partial-block branch of
the encryption loop recovers the partial bits followed by the random fill. -/
theorem decrypt_partial_aux (p g x y bsz : Nat) (hp : p.Prime) (hg : ¬ p ∣ g)
    (hx : x ≤ p - 1) (hy : y = powMod g x p) (hpow : 2 ^ bsz < p)
    (hup : p < 2 ^ (bsz + 1)) (k fill : Nat) (bits : List Bool)
    (hlt : bits.length < bsz) (hfd : fill / 2 ^ (bsz - bits.length) = 0)
    (acc : List Bool) :
    decryptBlocks p x bsz
      [(powMod g k p,
        (bitsToNat bits <<< (bsz - bits.length) ||| fill) * powMod y k p % p)]
      acc = .ok (acc ++ bits ++ natToBits (bsz - bits.length) fill) := by
  have hppos : 0 < p := hp.pos
  have hfill : fill < 2 ^ (bsz - bits.length) :=
    (Nat.div_eq_zero_iff (Nat.pos_of_ne_zero (by positivity))).mp hfd
  have hblock : (bitsToNat bits <<< (bsz - bits.length) ||| fill) =
      bitsToNat bits * 2 ^ (bsz - bits.length) + fill := by
    rw [Nat.shiftLeft_eq]
    exact mul_pow_lor_eq_add _ _ _ hfill
  have hblt : bitsToNat bits * 2 ^ (bsz - bits.length) + fill < 2 ^ bsz := by
    have h1 : bitsToNat bits < 2 ^ bits.length := bitsToNat_lt bits
    have h2 : bits.length + (bsz - bits.length) = bsz := by omega
    calc bitsToNat bits * 2 ^ (bsz - bits.length) + fill
        < bitsToNat bits * 2 ^ (bsz - bits.length) + 2 ^ (bsz - bits.length) := by
          omega
      _ = (bitsToNat bits + 1) * 2 ^ (bsz - bits.length) := by ring
      _ ≤ 2 ^ bits.length * 2 ^ (bsz - bits.length) := by
          exact Nat.mul_le_mul_right _ (by omega)
      _ = 2 ^ bsz := by rw [← Nat.pow_add, h2]
  have hgamma : powMod g k p < p := Nat.mod_lt _ hppos
  have hdelta :
      (bitsToNat bits <<< (bsz - bits.length) ||| fill) *
        powMod y k p % p < p := Nat.mod_lt _ hppos
  have hm := elgamal_block p g x k
    (bitsToNat bits <<< (bsz - bits.length) ||| fill) hp hg hx
    (by rw [hblock]; omega)
  rw [← hy] at hm
  simp only [decryptBlocks]
  rw [if_neg (by
    push_neg
    exact Nat.max_lt.mpr ⟨lt_trans hgamma hup, lt_trans hdelta hup⟩)]
  rw [hm]
  rw [show put_num acc (bitsToNat bits <<< (bsz - bits.length) ||| fill) bsz =
      .ok (acc ++ natToBits bsz (bitsToNat bits <<< (bsz - bits.length) ||| fill))
      from by
    unfold put_num; rw [if_neg (by rw [hblock]; omega)]]
  have hsplit : natToBits bsz (bitsToNat bits <<< (bsz - bits.length) ||| fill) =
      bits ++ natToBits (bsz - bits.length) fill := by
    rw [hblock]
    have h2 : bits.length + (bsz - bits.length) = bsz := by omega
    calc natToBits bsz (bitsToNat bits * 2 ^ (bsz - bits.length) + fill)
        = natToBits (bits.length + (bsz - bits.length))
            (bitsToNat bits * 2 ^ (bsz - bits.length) + fill) := by rw [h2]
      _ = natToBits bits.length (bitsToNat bits) ++
            natToBits (bsz - bits.length) fill :=
          natToBits_split _ _ _ _ (bitsToNat_lt bits) hfill
      _ = bits ++ natToBits (bsz - bits.length) fill := by
          rw [natToBits_bitsToNat]
  rw [hsplit]
  simp only [bind, Except.bind, decryptBlocks]
  simp [List.append_assoc]

/-- Decrypting the block list produced by the encryption loop appends, to the
accumulator, the encrypted bits followed by the random fill bits of the last
partial block. -/
theorem encryptBlocksGo_decryptBlocks (p g x y bsz : Nat) (hp : p.Prime)
    (hg : ¬ p ∣ g) (hx : x ≤ p - 1) (hy : y = powMod g x p) (hbsz : 1 ≤ bsz)
    (hpow : 2 ^ bsz < p) (hup : p < 2 ^ (bsz + 1)) (ks : Nat → Nat)
    (fill : Nat) :
    ∀ fuel : Nat, ∀ bits : List Bool, ∀ idx blocks,
      encryptBlocksGo p g y bsz ks fill fuel idx bits = .ok blocks →
      ∀ acc, ∃ tail, decryptBlocks p x bsz blocks acc = .ok (acc ++ bits ++ tail) := by
  have hppos : 0 < p := hp.pos
  intro fuel
  induction fuel with
  | zero =>
    intro bits idx blocks henc acc
    unfold encryptBlocksGo at henc
    by_cases hnil : bits = []
    · rw [if_pos hnil] at henc
      cases henc
      exact ⟨[], by simp [decryptBlocks, hnil]⟩
    · rw [if_neg hnil, if_neg (by omega)] at henc
      by_cases hfit : bsz ≤ bits.length
      · rw [if_pos hfit] at henc
        cases henc
      · rw [if_neg hfit] at henc
        push_neg at hfit
        by_cases hfd : fill / 2 ^ (bsz - bits.length) ≠ 0
        · rw [if_pos hfd] at henc; cases henc
        · rw [if_neg hfd] at henc
          cases henc
          push_neg at hfd
          exact ⟨natToBits (bsz - bits.length) fill,
            decrypt_partial_aux p g x y bsz hp hg hx hy hpow hup (ks idx) fill
              bits hfit hfd acc⟩
  | succ f ihn =>
    intro bits idx blocks henc acc
    unfold encryptBlocksGo at henc
    by_cases hnil : bits = []
    · rw [if_pos hnil] at henc
      cases henc
      exact ⟨[], by simp [decryptBlocks, hnil]⟩
    · rw [if_neg hnil, if_neg (by omega)] at henc
      by_cases hfit : bsz ≤ bits.length
      · rw [if_pos hfit] at henc
        rcases hrec : encryptBlocksGo p g y bsz ks fill f (idx + 1)
          (bits.drop bsz) with e | tl
        · rw [hrec] at henc; cases henc
        · rw [hrec] at henc
          cases henc
          have hblocklt : bitsToNat (bits.take bsz) < 2 ^ bsz := by
            have := bitsToNat_lt (bits.take bsz)
            rwa [List.length_take, Nat.min_eq_left hfit] at this
          have hgamma : powMod g (ks idx) p < p := Nat.mod_lt _ hppos
          have hdelta : bitsToNat (bits.take bsz) * powMod y (ks idx) p % p < p :=
            Nat.mod_lt _ hppos
          have hm := elgamal_block p g x (ks idx) (bitsToNat (bits.take bsz))
            hp hg hx (by omega)
          rw [← hy] at hm
          obtain ⟨tail, htail⟩ := ihn (bits.drop bsz) (idx + 1) tl hrec
            (acc ++ bits.take bsz)
          refine ⟨tail, ?_⟩
          simp only [decryptBlocks]
          rw [if_neg (by
            push_neg
            exact Nat.max_lt.mpr ⟨lt_trans hgamma hup, lt_trans hdelta hup⟩)]
          rw [hm]
          rw [show put_num acc (bitsToNat (bits.take bsz)) bsz =
              .ok (acc ++ natToBits bsz (bitsToNat (bits.take bsz))) from by
            unfold put_num; rw [if_neg (by omega)]]
          have hback : natToBits bsz (bitsToNat (bits.take bsz)) = bits.take bsz := by
            have hlt : (bits.take bsz).length = bsz := by
              rw [List.length_take, Nat.min_eq_left hfit]
            calc natToBits bsz (bitsToNat (bits.take bsz))
                = natToBits (bits.take bsz).length (bitsToNat (bits.take bsz)) := by
                  rw [hlt]
              _ = bits.take bsz := natToBits_bitsToNat _
          rw [hback]
          simp only [bind, Except.bind]
          rw [htail]
          rw [← List.take_append_drop bsz bits]
          simp [List.append_assoc]
      · rw [if_neg hfit] at henc
        push_neg at hfit
        by_cases hfd : fill / 2 ^ (bsz - bits.length) ≠ 0
        · rw [if_pos hfd] at henc; cases henc
        · rw [if_neg hfd] at henc
          cases henc
          push_neg at hfd
          exact ⟨natToBits (bsz - bits.length) fill,
            decrypt_partial_aux p g x y bsz hp hg hx hy hpow hup (ks idx) fill
              bits hfit hfd acc⟩

theorem encryptBlocks_decryptBlocks (p g x y bsz : Nat) (hp : p.Prime)
    (hg : ¬ p ∣ g) (hx : x ≤ p - 1) (hy : y = powMod g x p) (hbsz : 1 ≤ bsz)
    (hpow : 2 ^ bsz < p) (hup : p < 2 ^ (bsz + 1)) (ks : Nat → Nat)
    (fill : Nat) (bits : List Bool) (idx : Nat)
    (blocks : List (Nat × Nat))
    (henc : encryptBlocks p g y bsz ks fill idx bits = .ok blocks)
    (acc : List Bool) :
    ∃ tail, decryptBlocks p x bsz blocks acc = .ok (acc ++ bits ++ tail) :=
  encryptBlocksGo_decryptBlocks p g x y bsz hp hg hx hy hbsz hpow hup ks fill
    bits.length bits idx blocks henc acc

theorem except_bind_ok {α β : Type} {e : Except PyErr α} {f : α → Except PyErr β}
    {b : β} (h : (e >>= f) = .ok b) : ∃ a, e = .ok a ∧ f a = .ok b := by
  cases e with
  | error err => simp [bind, Except.bind] at h
  | ok a => exact ⟨a, rfl, by simpa [bind, Except.bind] using h⟩

theorem except_bind_error {α β : Type} {e : Except PyErr α}
    {f : α → Except PyErr β} {err : PyErr} (h : (e >>= f) = .error err) :
    e = .error err ∨ ∃ a, e = .ok a ∧ f a = .error err := by
  cases e with
  | error e2 =>
    left
    have h2 : e2 = err := by simpa [bind, Except.bind] using h
    rw [h2]
  | ok a => exact Or.inr ⟨a, rfl, by simpa [bind, Except.bind] using h⟩

theorem bytesToBits_length (bytes : List Nat) :
    (bytesToBits bytes).length = 8 * bytes.length := by
  induction bytes with
  | nil => simp [bytesToBits]
  | cons byte tl ih =>
    have : bytesToBits (byte :: tl) = natToBits 8 byte ++ bytesToBits tl := by
      simp [bytesToBits]
    rw [this]
    simp [length_natToBits, ih]
    ring

/-- C2.  Encryption/decryption round-trip: whenever encrypt_text of a byte
string M under a key pair over a valid cryptosystem returns a ciphertext (for
any padding request and any admissible random draws), decrypt_to_text of that
ciphertext with the matching private key returns exactly M. -/
theorem C2_encrypt_decrypt_roundtrip (p g x y nbits fingerprint : Nat)
    (M : List Nat) (padTo : Option Nat) (padDraws ks : Nat → Nat) (fill : Nat)
    (ct : Ciphertext) (hp : p.Prime) (hg : ¬ p ∣ g) (hx : x ≤ p - 1)
    (hy : y = powMod g x p) (hlow : 2 ^ (nbits - 1) < p) (hhigh : p < 2 ^ nbits)
    (hnb : 2 ≤ nbits)
    (henc : encrypt_text p g y nbits fingerprint M padTo padDraws ks fill = .ok ct) :
    decrypt_to_text p x nbits fingerprint ct false = .ok M := by
  -- unpack the encryption pipeline
  unfold encrypt_text at henc
  obtain ⟨bits, hps, henc⟩ := except_bind_ok henc
  obtain ⟨hM, hbits⟩ := put_string_ok_inv M [] bits hps
  simp only [List.nil_append] at hbits
  subst hbits
  unfold encrypt_bitstream at henc
  have hlen64 : (bytesToBits M).length < 2 ^ 64 := by
    by_contra hcontra
    push_neg at hcontra
    rw [if_pos hcontra] at henc
    exact Except.noConfusion henc
  rw [if_neg (by omega)] at henc
  rw [show put_num [] (bytesToBits M).length 64 =
      .ok (natToBits 64 (bytesToBits M).length) from by
    unfold put_num; rw [if_neg (by omega)]; simp] at henc
  obtain ⟨fs0, h0, henc⟩ := except_bind_ok henc
  have hfs0 : fs0 = natToBits 64 (bytesToBits M).length := (Except.ok.inj h0).symm
  obtain ⟨fs2, hpad, henc⟩ := except_bind_ok henc
  obtain ⟨extra, hfs2⟩ := padLoop_ok_shape padDraws _ _ _ _ hpad
  obtain ⟨blocks, hblocks, henc⟩ := except_bind_ok henc
  have hct : ct = ⟨nbits, fingerprint, blocks⟩ := (Except.ok.inj henc).symm
  rw [hct]
  -- now decrypt
  obtain ⟨tail, hdec⟩ := encryptBlocks_decryptBlocks p g x y (nbits - 1) hp hg hx hy
    (by omega) hlow (by
      have : nbits - 1 + 1 = nbits := by omega
      rw [this]; exact hhigh) ks fill fs2 0 blocks hblocks []
  unfold decrypt_to_text decrypt_to_bitstream
  rw [if_neg (by simp), if_neg (by simp)]
  simp only [List.nil_append] at hdec
  rw [hdec]
  simp only [bind, Except.bind]
  -- the decrypted stream is the formatted stream plus random bits
  set L := (bytesToBits M).length with hL
  have hshape : fs2 ++ tail =
      natToBits 64 L ++ (bytesToBits M ++ (extra ++ tail)) := by
    rw [hfs2, hfs0]
    simp [List.append_assoc]
  rw [hshape]
  have h64 : (natToBits 64 L).length = 64 := length_natToBits _ _
  have hget : get_num (natToBits 64 L ++ (bytesToBits M ++ (extra ++ tail))) 0 64
      = .ok L := by
    unfold get_num
    rw [if_neg (by simp only [List.length_append, h64, not_lt]; omega)]
    simp only [List.drop_zero]
    rw [List.take_left' h64, bitsToNat_natToBits 64 L hlen64]
  rw [hget]
  have hgetstr : get_string (natToBits 64 L ++ (bytesToBits M ++ (extra ++ tail)))
      64 L = .ok M := by
    unfold get_string
    rw [if_neg (by
      simp only [List.length_append, h64, not_lt]
      omega)]
    rw [if_neg (by
      push_neg
      rw [hL, bytesToBits_length]
      omega)]
    rw [List.drop_left' h64]
    have htake : (bytesToBits M ++ (extra ++ tail)).take L = bytesToBits M :=
      List.take_left' rfl
    rw [htake, bitsToBytes_bytesToBits M hM]
  exact hgetstr

set_option maxRecDepth 10000 in
/-- Witness for C2 at a concrete instance: p = 23, g = 5, x = 3, y = 10,
nbits = 5, message "A" ([65]), pad_to 10 bytes (larger than the formatted
message), all random draws fixed. -/
theorem C2_encrypt_decrypt_roundtrip_witness :
    decrypt_to_text 23 3 5 7
      ⟨5, 7, [(5,0),(5,0),(5,0),(5,0),(5,0),(5,0),(5,0),(5,0),(5,0),(5,0),
              (5,0),(5,0),(5,0),(5,0),(5,0),(5,11),(5,17),(5,10),(5,0),(5,10)]⟩
      false = .ok [65] :=
  C2_encrypt_decrypt_roundtrip 23 5 3 10 5 7 [65] (some 10) (fun _ => 1)
    (fun _ => 1) 0 _ (by norm_num) (by decide) (by decide) (by decide)
    (by decide) (by decide) (by decide) (by rfl)

theorem put_num_not_tooLarge (bs : List Bool) (num len : Nat) :
    put_num bs num len ≠ .error .valueErrorMessageTooLarge := by
  unfold put_num
  by_cases h : 2 ^ len ≤ num
  · rw [if_pos h]; simp
  · rw [if_neg h]; simp

theorem padLoopGo_not_tooLarge (padDraws : Nat → Nat) :
    ∀ fuel idx bs left,
      padLoopGo padDraws fuel idx bs left ≠ .error .valueErrorMessageTooLarge := by
  intro fuel
  induction fuel with
  | zero =>
    intro idx bs left
    rw [padLoopGo_zero]
    by_cases h1 : 1024 < left
    · rw [if_pos h1]; simp
    · rw [if_neg h1]
      by_cases h0 : 0 < left
      · rw [if_pos h0]; exact put_num_not_tooLarge _ _ _
      · rw [if_neg h0]; simp
  | succ f ih =>
    intro idx bs left
    rw [padLoopGo_succ]
    by_cases h1 : 1024 < left
    · rw [if_pos h1]
      rcases hput : put_num bs (padDraws idx) 1024 with e | bs2
      · have hne := put_num_not_tooLarge bs (padDraws idx) 1024
        rw [hput] at hne
        simp only [hput, bind, Except.bind]
        exact hne
      · simp only [hput, bind, Except.bind]
        exact ih _ _ _
    · rw [if_neg h1]
      by_cases h0 : 0 < left
      · rw [if_pos h0]; exact put_num_not_tooLarge _ _ _
      · rw [if_neg h0]; simp

theorem encryptBlocksGo_not_tooLarge (p g y bsz : Nat) (ks : Nat → Nat)
    (fill : Nat) : ∀ fuel idx bits,
    encryptBlocksGo p g y bsz ks fill fuel idx bits ≠
      .error .valueErrorMessageTooLarge := by
  intro fuel
  induction fuel with
  | zero =>
    intro idx bits
    unfold encryptBlocksGo
    by_cases hnil : bits = []
    · rw [if_pos hnil]; simp
    · rw [if_neg hnil]
      by_cases hz : bsz = 0
      · rw [if_pos hz]; simp
      · rw [if_neg hz]
        by_cases hfit : bsz ≤ bits.length
        · rw [if_pos hfit]; simp
        · rw [if_neg hfit]
          by_cases hfd : fill / 2 ^ (bsz - bits.length) ≠ 0
          · rw [if_pos hfd]; simp
          · rw [if_neg hfd]; simp
  | succ f ih =>
    intro idx bits
    unfold encryptBlocksGo
    by_cases hnil : bits = []
    · rw [if_pos hnil]; simp
    · rw [if_neg hnil]
      by_cases hz : bsz = 0
      · rw [if_pos hz]; simp
      · rw [if_neg hz]
        by_cases hfit : bsz ≤ bits.length
        · rw [if_pos hfit]
          rcases hrec : encryptBlocksGo p g y bsz ks fill f (idx + 1)
            (bits.drop bsz) with e | tl
          · have hne := ih (idx + 1) (bits.drop bsz)
            rw [hrec] at hne
            simpa [hrec] using hne
          · simp [hrec]
        · rw [if_neg hfit]
          by_cases hfd : fill / 2 ^ (bsz - bits.length) ≠ 0
          · rw [if_pos hfd]; simp
          · rw [if_neg hfd]; simp

/-- C5 counterexample.  On a bitstream of exactly 2^64 bits, the source's
encrypt_bitstream raises the untyped ValueError of its size check, not the
MessageToLongError exception that PublicKey.py defines for this purpose (and
never raises anywhere). -/
theorem C5_counterexample :
    encrypt_bitstream 23 5 10 5 7 (List.replicate (2 ^ 64) false) none
        (fun _ => 1) (fun _ => 1) 0 = .error .valueErrorMessageTooLarge ∧
    encrypt_bitstream 23 5 10 5 7 (List.replicate (2 ^ 64) false) none
        (fun _ => 1) (fun _ => 1) 0 ≠ .error .messageToLongError := by
  have h : encrypt_bitstream 23 5 10 5 7 (List.replicate (2 ^ 64) false) none
      (fun _ => 1) (fun _ => 1) 0 = .error .valueErrorMessageTooLarge := by
    unfold encrypt_bitstream
    rw [if_pos (le_of_eq (List.length_replicate _ _).symm)]
  exact ⟨h, by rw [h]; simp⟩

/-- C5 amended.  Encryption of a bitstream of 2^64 bits or more aborts the
call with the ValueError of the size check (rather than the typed
MessageToLongError, which the source never raises); encryption of any
shorter bitstream never produces that error. -/
theorem C5_encrypt_size_check (p g y nbits fingerprint : Nat)
    (bits : List Bool) (padTo : Option Nat) (padDraws ks : Nat → Nat)
    (fill : Nat) :
    (2 ^ 64 ≤ bits.length →
      encrypt_bitstream p g y nbits fingerprint bits padTo padDraws ks fill =
        .error .valueErrorMessageTooLarge) ∧
    (bits.length < 2 ^ 64 →
      encrypt_bitstream p g y nbits fingerprint bits padTo padDraws ks fill ≠
        .error .valueErrorMessageTooLarge) := by
  constructor
  · intro hlen
    unfold encrypt_bitstream
    rw [if_pos hlen]
  · intro hlen
    unfold encrypt_bitstream
    rw [if_neg (by omega)]
    rw [show put_num [] bits.length 64 = .ok (natToBits 64 bits.length) from by
      unfold put_num; rw [if_neg (by omega)]; simp]
    intro hcontra
    rcases except_bind_error hcontra with h0 | ⟨fs0, h0, hcontra⟩
    · exact Except.noConfusion h0
    rcases except_bind_error hcontra with hpad | ⟨fs2, _, hcontra⟩
    · exact padLoopGo_not_tooLarge padDraws _ _ _ _ hpad
    rcases except_bind_error hcontra with hblocks | ⟨blocks, _, hcontra⟩
    · exact encryptBlocksGo_not_tooLarge p g y (nbits - 1) ks fill _ _ _ hblocks
    · exact absurd hcontra (by simp [pure, Except.pure])

/-- Witness for C5 amended: the size check fires at exactly 2^64 bits with
the ValueError, and never fires below it. -/
theorem C5_encrypt_size_check_witness :
    encrypt_bitstream 23 5 10 5 7 (List.replicate (2 ^ 64) false) none
        (fun _ => 1) (fun _ => 1) 0 = .error .valueErrorMessageTooLarge ∧
    encrypt_bitstream 23 5 10 5 7 [] none (fun _ => 1) (fun _ => 1) 0 ≠
      .error .valueErrorMessageTooLarge :=
  ⟨(C5_encrypt_size_check 23 5 10 5 7 (List.replicate (2 ^ 64) false) none
      (fun _ => 1) (fun _ => 1) 0).1 (le_of_eq (List.length_replicate _ _).symm),
   (C5_encrypt_size_check 23 5 10 5 7 [] none
      (fun _ => 1) (fun _ => 1) 0).2 (by decide)⟩

/-- C9.  Random padding can abort encryption: the source draws padding with
randint(1, 2^w), whose upper endpoint 2^w is an admissible draw that does not
fit in w bits, so put_num raises ValueError and the encryption call fails
instead of returning a ciphertext.  Concretely: an empty message with
pad_to = 9 leaves an 8-bit padding slot, and the admissible draw 256 = 2^8
makes encrypt_bitstream return the put_num ValueError. -/
theorem C9_padding_draw_aborts_encryption :
    1 ≤ 256 ∧ 256 ≤ 2 ^ 8 ∧
    encrypt_bitstream 23 5 10 5 7 [] (some 9) (fun _ => 256) (fun _ => 1) 0 =
      .error .valueErrorPutNum := by
  refine ⟨by decide, by decide, ?_⟩
  rfl

/-! Mixnet embedding: CiphertextCollection.py, CiphertextReencryptionInfo.py
and CiphertextCollectionMapping.py.  A public key is carried as the data the
mixnet code reads from it: the cryptosystem numbers, the key value and the
opaque fingerprint token (get_fingerprint's SHA256 digest). -/

structure PubKey where
  nbits : Nat
  prime : Nat
  generator : Nat
  key : Nat
  fp : Nat
  deriving Repr, DecidableEq

/-- Result of a Python indexing operation that may return an exception object
instead of raising it: both mixnet __getitem__ methods return (not raise) a
ValueError instance when the index is out of range. -/
inductive GetItemResult (α : Type) where
  | value : α → GetItemResult α
  | valueErrorObject : GetItemResult α
  deriving Repr, DecidableEq

/-- CiphertextCollection: a public key and the ordered ciphertext list; the
collection caches its key's fingerprint at construction. -/
structure CiphertextCollection where
  public_key : PubKey
  ciphertexts : List Ciphertext
  deriving Repr, DecidableEq

/-- CiphertextCollection.__getitem__ (indexes may be negative in Python, so
the index is an Int): inside [0, length) the ciphertext is returned,
otherwise a ValueError OBJECT is returned as the result value. -/
def CiphertextCollection.getitem (c : CiphertextCollection) (i : Int) :
    GetItemResult Ciphertext :=
  if 0 ≤ i ∧ i < c.ciphertexts.length then
    .value (c.ciphertexts.getD i.toNat ⟨0, 0, []⟩)
  else .valueErrorObject

/-- CiphertextReencryptionInfo: a public key and one (g^r, y^r) block pair
per ciphertext block. -/
structure CiphertextReencryptionInfo where
  public_key : PubKey
  blocks : List (Nat × Nat)
  deriving Repr, DecidableEq

/-- CiphertextReencryptionInfo.__getitem__: same return-instead-of-raise
behaviour as the collection's. -/
def CiphertextReencryptionInfo.getitem (r : CiphertextReencryptionInfo)
    (i : Int) : GetItemResult (Nat × Nat) :=
  if 0 ≤ i ∧ i < r.blocks.length then
    .value (r.blocks.getD i.toNat (0, 0))
  else .valueErrorObject

/-- CiphertextCollection.__eq__: same length and elementwise-equal
ciphertexts (the collection's own public key is not compared). -/
def collectionEq (a b : CiphertextCollection) : Bool :=
  a.ciphertexts.length == b.ciphertexts.length &&
    (List.zip a.ciphertexts b.ciphertexts).all fun pr => ciphertextEq pr.1 pr.2

/-- CiphertextCollection.add_ciphertext: reject a ciphertext whose public key
fingerprint differs from the collection's cached one, else append. -/
def add_ciphertext (c : CiphertextCollection) (ct : Ciphertext) :
    Except PyErr CiphertextCollection :=
  if ct.pk_fingerprint ≠ c.public_key.fp then .error .incompatibleCiphertext
  else .ok ⟨c.public_key, c.ciphertexts ++ [ct]⟩

/-- CiphertextReencryptionInfo.apply: blockwise
(new_gamma, new_delta) = (gr gamma mod p, yr delta mod p), after the length
and fingerprint compatibility checks of the source. -/
def reencryptionApply (r : CiphertextReencryptionInfo) (ct : Ciphertext) :
    Except PyErr Ciphertext :=
  if ct.blocks.length ≠ r.blocks.length then .error .incompatibleCiphertext
  else if ct.pk_fingerprint ≠ r.public_key.fp then .error .incompatibleCiphertext
  else .ok ⟨r.public_key.nbits, ct.pk_fingerprint,
    (List.zip ct.blocks r.blocks).map fun pr =>
      ((pr.2.1 * pr.1.1) % r.public_key.prime,
       (pr.2.2 * pr.1.2) % r.public_key.prime)⟩

/-- CiphertextCollectionMapping: the index reordering and one re-encryption
info per source position. -/
structure CiphertextCollectionMapping where
  reordering : List Nat
  reencryptions : List CiphertextReencryptionInfo
  deriving Repr

/-- The main loop of CiphertextCollectionMapping.apply: re-encrypt each
source ciphertext and place it at its reordered position in the temporary
array (Python list assignment raises IndexError when out of range;
re-encryption incompatibilities are wrapped as
IncompatibleCiphertextCollectionError). -/
def mapApplyLoop : List Ciphertext → List CiphertextReencryptionInfo →
    List Nat → List (Option Ciphertext) →
    Except PyErr (List (Option Ciphertext))
  | [], _, _, temp => .ok temp
  | ct :: cts, r :: rs, idx :: idxs, temp =>
    match reencryptionApply r ct with
    | .error _ => .error .incompatibleCollection
    | .ok re =>
      if idx < temp.length then
        mapApplyLoop cts rs idxs (temp.set idx (some re))
      else .error .indexError
  | _, _, _, _ => .error .indexError

/-- The final loop of CiphertextCollectionMapping.apply: add every entry of
the temporary array to a fresh collection; a position never assigned holds
None, whose use raises an AttributeError. -/
def addAllTemp : CiphertextCollection → List (Option Ciphertext) →
    Except PyErr CiphertextCollection
  | c, [] => .ok c
  | _, none :: _ => .error .noneTypeError
  | c, some ct :: tl =>
    match add_ciphertext c ct with
    | .error e => .error e
    | .ok c2 => addAllTemp c2 tl

/-- CiphertextCollectionMapping.apply. -/
def mappingApply (m : CiphertextCollectionMapping)
    (collection : CiphertextCollection) : Except PyErr CiphertextCollection :=
  if m.reencryptions.length ≠ m.reordering.length then .error .assertionFailure
  else if collection.ciphertexts.length ≠ m.reencryptions.length then
    .error .incompatibleCollection
  else
    match mapApplyLoop collection.ciphertexts m.reencryptions m.reordering
        (List.replicate collection.ciphertexts.length none) with
    | .error e => .error e
    | .ok temp => addAllTemp ⟨collection.public_key, []⟩ temp

/-- CiphertextCollectionMapping.verify: re-derive apply(original) and compare
structurally; only IncompatibleCiphertextCollectionError is caught and turned
into False, any other exception propagates. -/
def mappingVerify (m : CiphertextCollectionMapping)
    (original shuffled : CiphertextCollection) : Except PyErr Bool :=
  match mappingApply m original with
  | .error .incompatibleCollection => .ok false
  | .error e => .error e
  | .ok img => .ok (collectionEq img shuffled)

theorem getD_set_self {α : Type} (l : List α) (i : Nat) (v d : α)
    (h : i < l.length) : (l.set i v).getD i d = v := by
  unfold List.getD
  rw [List.get?_eq_getElem?, List.getElem?_set_self (by simpa using h)]
  rfl

theorem getD_set_ne {α : Type} (l : List α) (i j : Nat) (v d : α)
    (h : i ≠ j) : (l.set i v).getD j d = l.getD j d := by
  unfold List.getD
  rw [List.get?_eq_getElem?, List.getElem?_set_ne h, List.get?_eq_getElem?]

theorem collectionEq_iff (a b : CiphertextCollection) :
    collectionEq a b = true ↔ a.ciphertexts = b.ciphertexts := by
  unfold collectionEq
  rcases a with ⟨pka, la⟩
  rcases b with ⟨pkb, lb⟩
  simp only [Bool.and_eq_true, beq_iff_eq, List.all_eq_true]
  constructor
  · rintro ⟨hlen, hall⟩
    apply List.ext_getElem hlen
    intro i h1 h2
    have hmem : (la[i], lb[i]) ∈ List.zip la lb := by
      rw [List.mem_iff_getElem]
      refine ⟨i, by simp [List.length_zip]; omega, ?_⟩
      simp [List.getElem_zip]
    exact (ciphertextEq_iff _ _).mp (hall _ hmem)
  · rintro rfl
    refine ⟨rfl, ?_⟩
    intro pr hpr
    rw [List.mem_iff_getElem] at hpr
    obtain ⟨i, hi, hpr⟩ := hpr
    rw [List.getElem_zip] at hpr
    rw [← hpr]
    exact (ciphertextEq_iff _ _).mpr rfl

theorem reencryptionApply_ok (r : CiphertextReencryptionInfo) (ct : Ciphertext)
    (hlen : ct.blocks.length = r.blocks.length)
    (hfp : ct.pk_fingerprint = r.public_key.fp) :
    reencryptionApply r ct = .ok ⟨r.public_key.nbits, ct.pk_fingerprint,
      (List.zip ct.blocks r.blocks).map fun pr =>
        ((pr.2.1 * pr.1.1) % r.public_key.prime,
         (pr.2.2 * pr.1.2) % r.public_key.prime)⟩ := by
  unfold reencryptionApply
  rw [if_neg (by omega), if_neg (by simp [hfp])]

theorem mapApplyLoop_ok (fpC : Nat) :
    ∀ (cts : List Ciphertext) (rs : List CiphertextReencryptionInfo)
      (idxs : List Nat) (temp : List (Option Ciphertext)),
      List.Forall₂ (fun (ct : Ciphertext) (r : CiphertextReencryptionInfo) =>
        ct.blocks.length = r.blocks.length ∧
        ct.pk_fingerprint = r.public_key.fp ∧
        ct.pk_fingerprint = fpC) cts rs →
      idxs.length = cts.length →
      (∀ i ∈ idxs, i < temp.length) →
      (∀ e ∈ temp, e = none ∨ ∃ v, e = some v ∧ v.pk_fingerprint = fpC) →
      ∃ temp2, mapApplyLoop cts rs idxs temp = .ok temp2 ∧
        temp2.length = temp.length ∧
        (∀ e ∈ temp2, e = none ∨ ∃ v, e = some v ∧ v.pk_fingerprint = fpC) ∧
        (∀ j ∈ idxs, ∃ v, temp2.getD j none = some v) ∧
        (∀ j, j ∉ idxs → temp2.getD j none = temp.getD j none) := by
  intro cts
  induction cts with
  | nil =>
    intro rs idxs temp hfa hlen hbound hentries
    cases hfa
    have : idxs = [] := List.length_eq_zero.mp (by simpa using hlen)
    subst this
    refine ⟨temp, rfl, rfl, hentries, by simp, fun j _ => rfl⟩
  | cons ct cts ih =>
    intro rs idxs temp hfa hlen hbound hentries
    rcases hfa with _ | ⟨⟨hblen, hbfp, hctfp⟩, hfa⟩
    rename_i r rs
    rcases idxs with _ | ⟨idx, idxs⟩
    · simp at hlen
    have hidx : idx < temp.length := hbound idx (List.mem_cons_self _ _)
    have happly := reencryptionApply_ok r ct hblen hbfp
    have hre : (⟨r.public_key.nbits, ct.pk_fingerprint,
        (List.zip ct.blocks r.blocks).map fun pr =>
          ((pr.2.1 * pr.1.1) % r.public_key.prime,
           (pr.2.2 * pr.1.2) % r.public_key.prime)⟩ : Ciphertext).pk_fingerprint
        = fpC := hctfp
    obtain ⟨temp2, hloop, hlen2, hentries2, hsome2, hunch2⟩ :=
      ih rs idxs (temp.set idx (some _)) hfa (by simpa using hlen)
        (fun i hi => by
          rw [List.length_set]
          exact hbound i (List.mem_cons_of_mem _ hi))
        (fun e he => by
          rcases List.mem_or_eq_of_mem_set he with hmem | rfl
          · exact hentries e hmem
          · exact Or.inr ⟨_, rfl, hre⟩)
    refine ⟨temp2, ?_, by rwa [List.length_set] at hlen2, hentries2, ?_, ?_⟩
    · unfold mapApplyLoop
      rw [happly]
      simp only [if_pos hidx]
      exact hloop
    · intro j hj
      rcases List.mem_cons.mp hj with rfl | hj2
      · by_cases hjin : j ∈ idxs
        · exact hsome2 j hjin
        · rw [hunch2 j hjin, getD_set_self _ _ _ _ hidx]
          exact ⟨_, rfl⟩
      · exact hsome2 j hj2
    · intro j hj
      have hj1 : idx ≠ j := fun hcontra => hj (hcontra ▸ List.mem_cons_self _ _)
      have hj2 : j ∉ idxs := fun hcontra => hj (List.mem_cons_of_mem _ hcontra)
      rw [hunch2 j hj2, getD_set_ne _ _ _ _ _ hj1]

theorem addAllTemp_ok :
    ∀ (temp : List (Option Ciphertext)) (c : CiphertextCollection),
      (∀ e ∈ temp, ∃ v, e = some v ∧ v.pk_fingerprint = c.public_key.fp) →
      ∃ c2, addAllTemp c temp = .ok c2 ∧ c2.public_key = c.public_key := by
  intro temp
  induction temp with
  | nil => exact fun c _ => ⟨c, rfl, rfl⟩
  | cons e tl ih =>
    intro c hentries
    obtain ⟨v, rfl, hvfp⟩ := hentries e (List.mem_cons_self _ _)
    have hadd : add_ciphertext c v = .ok ⟨c.public_key, c.ciphertexts ++ [v]⟩ := by
      unfold add_ciphertext
      rw [if_neg (by simp [hvfp])]
    obtain ⟨c2, hrec, hpk⟩ := ih ⟨c.public_key, c.ciphertexts ++ [v]⟩
      (fun e he => hentries e (List.mem_cons_of_mem _ he))
    refine ⟨c2, ?_, hpk⟩
    unfold addAllTemp
    rw [hadd]
    exact hrec

/-- C8.  Mapping round-trip and exactness: for a mapping generated for a
collection (a reordering that permutes the positions, and per-position
re-encryption data matching each ciphertext's block count and public key),
verify(C, apply(C)) returns true; verify(C, S) returns false (a Boolean, not
an error) for every S that is not structurally equal to the image, and for
every collection whose length does not match the mapping. -/
theorem C8_mapping_roundtrip_exactness (C : CiphertextCollection)
    (m : CiphertextCollectionMapping)
    (hperm : m.reordering.Perm (List.range C.ciphertexts.length))
    (hfa : List.Forall₂ (fun (ct : Ciphertext) (r : CiphertextReencryptionInfo) =>
      ct.blocks.length = r.blocks.length ∧
      ct.pk_fingerprint = r.public_key.fp ∧
      ct.pk_fingerprint = C.public_key.fp) C.ciphertexts m.reencryptions) :
    (∃ img, mappingApply m C = .ok img ∧
      mappingVerify m C img = .ok true ∧
      ∀ S, collectionEq img S = false → mappingVerify m C S = .ok false) ∧
    (∀ C2 S, C2.ciphertexts.length ≠ m.reencryptions.length →
      mappingVerify m C2 S = .ok false) := by
  have hlen1 : C.ciphertexts.length = m.reencryptions.length := hfa.length_eq
  have hlen2 : m.reordering.length = C.ciphertexts.length := by
    have := hperm.length_eq
    simpa using this
  have hmain : ∃ img, mappingApply m C = .ok img := by
    obtain ⟨temp2, hloop, hlen2t, hentries2, hsome2, _⟩ :=
      mapApplyLoop_ok C.public_key.fp C.ciphertexts m.reencryptions
        m.reordering (List.replicate C.ciphertexts.length none) hfa
        (by omega)
        (fun i hi => by
          rw [List.length_replicate]
          have : i ∈ List.range C.ciphertexts.length := hperm.mem_iff.mp hi
          exact List.mem_range.mp this)
        (fun e he => Or.inl (List.eq_of_mem_replicate he))
    have hall : ∀ e ∈ temp2, ∃ v, e = some v ∧
        v.pk_fingerprint = C.public_key.fp := by
      intro e he
      obtain ⟨j, hj, hget⟩ := List.mem_iff_getElem.mp he
      have hjlen : j < C.ciphertexts.length := by
        rw [hlen2t, List.length_replicate] at hj
        exact hj
      have hjidx : j ∈ m.reordering :=
        hperm.mem_iff.mpr (List.mem_range.mpr hjlen)
      obtain ⟨v, hv⟩ := hsome2 j hjidx
      rw [List.getD_eq_getElem _ _ hj, hget] at hv
      rcases hentries2 e he with rfl | ⟨v2, rfl, hfp2⟩
      · exact Option.noConfusion hv
      · exact ⟨v2, rfl, hfp2⟩
    obtain ⟨img, haddall, _⟩ :=
      addAllTemp_ok temp2 ⟨C.public_key, []⟩ hall
    refine ⟨img, ?_⟩
    unfold mappingApply
    rw [if_neg (by omega), if_neg (by omega), hloop]
    exact haddall
  obtain ⟨img, happly⟩ := hmain
  constructor
  · refine ⟨img, happly, ?_, ?_⟩
    · unfold mappingVerify
      rw [happly]
      show Except.ok (collectionEq img img) = Except.ok true
      rw [(collectionEq_iff img img).mpr rfl]
    · intro S hS
      unfold mappingVerify
      rw [happly]
      show Except.ok (collectionEq img S) = Except.ok false
      rw [hS]
  · intro C2 S hne
    unfold mappingVerify mappingApply
    rw [if_neg (by omega), if_pos (by omega)]

/-- Witness for C8 at a concrete two-element collection over p = 23 with the
swap reordering. -/
theorem C8_mapping_roundtrip_exactness_witness :
    mappingVerify ⟨[1, 0], [⟨⟨5, 23, 5, 10, 7⟩, [(5, 10)]⟩, ⟨⟨5, 23, 5, 10, 7⟩, [(3, 4)]⟩]⟩
        ⟨⟨5, 23, 5, 10, 7⟩, [⟨5, 7, [(2, 3)]⟩, ⟨5, 7, [(4, 6)]⟩]⟩
        ⟨⟨5, 23, 5, 10, 7⟩, [⟨5, 7, [(12, 1)]⟩, ⟨5, 7, [(10, 7)]⟩]⟩ = .ok true ∧
    mappingVerify ⟨[1, 0], [⟨⟨5, 23, 5, 10, 7⟩, [(5, 10)]⟩, ⟨⟨5, 23, 5, 10, 7⟩, [(3, 4)]⟩]⟩
        ⟨⟨5, 23, 5, 10, 7⟩, [⟨5, 7, [(2, 3)]⟩, ⟨5, 7, [(4, 6)]⟩]⟩
        ⟨⟨5, 23, 5, 10, 7⟩, []⟩ = .ok false := by
  have h := C8_mapping_roundtrip_exactness
    ⟨⟨5, 23, 5, 10, 7⟩, [⟨5, 7, [(2, 3)]⟩, ⟨5, 7, [(4, 6)]⟩]⟩
    ⟨[1, 0], [⟨⟨5, 23, 5, 10, 7⟩, [(5, 10)]⟩, ⟨⟨5, 23, 5, 10, 7⟩, [(3, 4)]⟩]⟩
    (by decide)
    (List.Forall₂.cons ⟨rfl, rfl, rfl⟩
      (List.Forall₂.cons ⟨rfl, rfl, rfl⟩ List.Forall₂.nil))
  obtain ⟨⟨img, happly, hverify, hexact⟩, _⟩ := h
  have hcomp : mappingApply
      ⟨[1, 0], [⟨⟨5, 23, 5, 10, 7⟩, [(5, 10)]⟩, ⟨⟨5, 23, 5, 10, 7⟩, [(3, 4)]⟩]⟩
      ⟨⟨5, 23, 5, 10, 7⟩, [⟨5, 7, [(2, 3)]⟩, ⟨5, 7, [(4, 6)]⟩]⟩ =
      .ok ⟨⟨5, 23, 5, 10, 7⟩, [⟨5, 7, [(12, 1)]⟩, ⟨5, 7, [(10, 7)]⟩]⟩ := by rfl
  have himg : (⟨⟨5, 23, 5, 10, 7⟩,
      [⟨5, 7, [(12, 1)]⟩, ⟨5, 7, [(10, 7)]⟩]⟩ : CiphertextCollection) = img :=
    Except.ok.inj (hcomp.symm.trans happly)
  constructor
  · rw [himg]; exact hverify
  · exact hexact _ (by rw [← himg]; rfl)

/-- C10.  Out-of-range indexing on CiphertextCollection and
CiphertextReencryptionInfo returns a ValueError exception object as the
result value, instead of raising. -/
theorem C10_getitem_returns_valueError (c : CiphertextCollection)
    (r : CiphertextReencryptionInfo) (i j : Int)
    (hi : i < 0 ∨ (c.ciphertexts.length : Int) ≤ i)
    (hj : j < 0 ∨ (r.blocks.length : Int) ≤ j) :
    c.getitem i = .valueErrorObject ∧ r.getitem j = .valueErrorObject := by
  constructor
  · unfold CiphertextCollection.getitem
    rw [if_neg (by omega)]
  · unfold CiphertextReencryptionInfo.getitem
    rw [if_neg (by omega)]

/-- Witness for C10 at a one-element collection and re-encryption info with a
negative and a too-large index. -/
theorem C10_getitem_returns_valueError_witness :
    CiphertextCollection.getitem ⟨⟨5, 23, 5, 10, 7⟩, [⟨5, 7, [(2, 3)]⟩]⟩ (-1) =
      .valueErrorObject ∧
    CiphertextReencryptionInfo.getitem ⟨⟨5, 23, 5, 10, 7⟩, [(5, 10)]⟩ 1 =
      .valueErrorObject :=
  C10_getitem_returns_valueError ⟨⟨5, 23, 5, 10, 7⟩, [⟨5, 7, [(2, 3)]⟩]⟩
    ⟨⟨5, 23, 5, 10, 7⟩, [(5, 10)]⟩ (-1) 1 (by decide) (by decide)

/-! EGCryptoSystem.py embedding.  Crypto.Util.number.isPrime and getPrime
are the external pycrypto dependency: the probabilistic primality test is
embedded as exact primality (the claims allow the configured error
probability), and getPrime's random draws are passed in as a candidate
stream.  params.py is not among the sources, so the minimum key size it
configures is a parameter. -/

def pyIsPrime (n : Nat) : Bool := decide (Nat.Prime n)

/-- The helper _is_safe_prime of EGCryptoSystem.py. -/
def is_safe_prime (p : Nat) : Bool :=
  if p % 2 == 0 then false
  else pyIsPrime ((p - 1) / 2) && pyIsPrime p

/-- The helper _is_generator of EGCryptoSystem.py: the two subgroup checks of
a safe-prime group. -/
def is_generator (p g : Nat) : Bool :=
  if powMod g 2 p == 1 then false
  else if powMod g ((p - 1) / 2) p == 1 then false
  else true

/-- The helper _generate_safe_prime: sample q candidates (from
getPrime(nbits - 1)) until p = 2q + 1 and q both pass the primality test;
none models a run whose candidate stream is exhausted (the source would keep
looping). -/
def generate_safe_prime : List Nat → Option Nat
  | [] => none
  | q :: tl =>
    if pyIsPrime (2 * q + 1) = false then generate_safe_prime tl
    else if pyIsPrime q = false then generate_safe_prime tl
    else some (2 * q + 1)

/-- The helper _get_generator: sample candidates until one passes
_is_generator. -/
def get_generator (p : Nat) : List Nat → Option Nat
  | [] => none
  | a :: tl => if is_generator p a then some a else get_generator p tl

/-- Outcome of the EGCryptoSystem factory methods.  The raise sites of
EGCryptoSystem.py for KeyLengthNonBytableError, NotASafePrimeError and
NotAGeneratorError refer to names that the module never imports (only
KeyLengthTooLowError is imported from PVCExceptions), so in Python those
paths raise NameError instead of the intended typed exception; the
constructor names record which raise site was reached. -/
inductive LoadResult where
  | ok : Nat → Nat → Nat → LoadResult
  | keyLengthTooLowError : LoadResult
  | nameErrorKeyLengthNonBytable : LoadResult
  | nameErrorNotASafePrime : LoadResult
  | nameErrorNotAGenerator : LoadResult
  | pending : LoadResult
  deriving Repr, DecidableEq

/-- EGCryptoSystem.load(nbits, prime, generator): verify the key size, then
that prime is a safe prime, then that generator passes the generator test.
No comparison of the prime against the bit size nbits is performed. -/
def eg_load (minimumKeySize nbits prime generator : Nat) : LoadResult :=
  if nbits < minimumKeySize then .keyLengthTooLowError
  else if nbits % 8 != 0 then .nameErrorKeyLengthNonBytable
  else if is_safe_prime prime then
    if is_generator prime generator then .ok nbits prime generator
    else .nameErrorNotAGenerator
  else .nameErrorNotASafePrime

/-- EGCryptoSystem.new(nbits): verify the key size, generate a safe prime,
then a generator (pending stands for a run still inside the sampling loops). -/
def eg_new (minimumKeySize nbits : Nat) (qCands gCands : List Nat) : LoadResult :=
  if nbits < minimumKeySize then .keyLengthTooLowError
  else if nbits % 8 != 0 then .nameErrorKeyLengthNonBytable
  else
    match generate_safe_prime qCands with
    | none => .pending
    | some p =>
      match get_generator p gCands with
      | none => .pending
      | some g => .ok nbits p g

theorem generate_safe_prime_spec : ∀ cands : List Nat,
    ∀ p, generate_safe_prime cands = some p →
      ∃ q ∈ cands, p = 2 * q + 1 ∧ Nat.Prime p ∧ Nat.Prime q := by
  intro cands
  induction cands with
  | nil => intro p h; cases h
  | cons q tl ih =>
    intro p h
    unfold generate_safe_prime at h
    by_cases h1 : pyIsPrime (2 * q + 1) = false
    · rw [if_pos h1] at h
      obtain ⟨q2, hq2, hrest⟩ := ih p h
      exact ⟨q2, List.mem_cons_of_mem _ hq2, hrest⟩
    · rw [if_neg h1] at h
      by_cases h2 : pyIsPrime q = false
      · rw [if_pos h2] at h
        obtain ⟨q2, hq2, hrest⟩ := ih p h
        exact ⟨q2, List.mem_cons_of_mem _ hq2, hrest⟩
      · rw [if_neg h2] at h
        cases h
        refine ⟨q, List.mem_cons_self _ _, rfl, ?_, ?_⟩
        · have := Bool.not_eq_false _ |>.mp h1
          exact of_decide_eq_true this
        · have := Bool.not_eq_false _ |>.mp h2
          exact of_decide_eq_true this

theorem get_generator_spec : ∀ (p : Nat) (cands : List Nat) (g : Nat),
    get_generator p cands = some g → is_generator p g = true := by
  intro p cands
  induction cands with
  | nil => intro g h; cases h
  | cons a tl ih =>
    intro g h
    unfold get_generator at h
    by_cases ha : is_generator p a
    · rw [if_pos ha] at h
      cases h
      exact ha
    · rw [if_neg ha] at h
      exact ih g h

/-- C6.  For every valid bit size (at least the configured minimum, a
multiple of eight), a completed run of EGCryptoSystem.new(nbits) yields a
prime p strictly between 2^(nbits-1) and 2^nbits with (p-1)/2 also prime
(primality up to the external test's error probability, embedded as exact),
and a generator g with g^2 mod p and g^((p-1)/2) mod p both distinct
from 1.  The q candidates come from getPrime(nbits - 1), whose contract is
that they have exactly nbits - 1 bits. -/
theorem C6_new_generates_safe_prime_and_generator
    (minimumKeySize nbits : Nat) (qCands gCands : List Nat) (p g : Nat)
    (hmin : minimumKeySize ≤ nbits) (hmul : nbits % 8 = 0) (hnb : 2 ≤ nbits)
    (hrange : ∀ q ∈ qCands, 2 ^ (nbits - 2) ≤ q ∧ q < 2 ^ (nbits - 1))
    (hnew : eg_new minimumKeySize nbits qCands gCands = .ok nbits p g) :
    Nat.Prime p ∧ Nat.Prime ((p - 1) / 2) ∧
    2 ^ (nbits - 1) < p ∧ p < 2 ^ nbits ∧
    powMod g 2 p ≠ 1 ∧ powMod g ((p - 1) / 2) p ≠ 1 := by
  unfold eg_new at hnew
  rw [if_neg (by omega), if_neg (by simp [hmul])] at hnew
  split at hnew
  · cases hnew
  next p2 hq =>
  split at hnew
  · cases hnew
  next g2 hg =>
  cases hnew
  obtain ⟨q, hqmem, rfl, hpprime, hqprime⟩ := generate_safe_prime_spec _ _ hq
  obtain ⟨hqlo, hqhi⟩ := hrange q hqmem
  have hhalf : (2 * q + 1 - 1) / 2 = q := by omega
  have hgen := get_generator_spec _ _ _ hg
  unfold is_generator at hgen
  have hg1 : powMod g 2 (2 * q + 1) ≠ 1 := by
    intro hcontra
    rw [if_pos (by simp [hcontra])] at hgen
    cases hgen
  have hg2 : powMod g ((2 * q + 1 - 1) / 2) (2 * q + 1) ≠ 1 := by
    intro hcontra
    rw [if_neg (by simp [hg1]), if_pos (by rw [hcontra]; rfl)] at hgen
    cases hgen
  refine ⟨hpprime, by rwa [hhalf], ?_, ?_, hg1, hg2⟩
  · have h2 : 2 ^ (nbits - 1) = 2 * 2 ^ (nbits - 2) := by
      rw [← Nat.pow_succ']
      congr 1
      omega
    omega
  · have h2 : 2 ^ nbits = 2 * 2 ^ (nbits - 1) := by
      rw [← Nat.pow_succ']
      congr 1
      omega
    omega

/-- Witness for C6 at nbits = 8, candidate q = 83 (an 7-bit prime),
generator candidate 5: p = 167. -/
theorem C6_new_generates_safe_prime_and_generator_witness :
    Nat.Prime 167 ∧ Nat.Prime ((167 - 1) / 2) ∧
    2 ^ (8 - 1) < 167 ∧ 167 < 2 ^ 8 ∧
    powMod 5 2 167 ≠ 1 ∧ powMod 5 ((167 - 1) / 2) 167 ≠ 1 :=
  C6_new_generates_safe_prime_and_generator 8 8 [83] [5] 167 5
    (by decide) (by decide) (by decide) (by decide) (by decide)

/-- C4 (record of the code bug).  With minimum key size 256:
load(512, 7, 3) silently accepts the safe prime 7, which is in no way a
512-bit prime (the source never checks the prime's size against nbits,
though its own unit tests expect a KeyLengthMismatch error for exactly this
input shape); load(512, 15, 3) reaches the NotASafePrimeError raise site and
load(512, 7, 2) the NotAGeneratorError one, both of which name unimported
identifiers and therefore raise NameError in Python rather than the typed
errors the claim (and the library's unit tests) require. -/
theorem C4_load_failing_inputs :
    eg_load 256 512 7 3 = .ok 512 7 3 ∧ ¬ (2 ^ 511 < 7) ∧
    eg_load 256 512 15 3 = .nameErrorNotASafePrime ∧
    eg_load 256 512 7 2 = .nameErrorNotAGenerator := by
  refine ⟨by decide, ?_, by decide, by decide⟩
  have h8 : (2 : Nat) ^ 3 ≤ 2 ^ 511 := Nat.pow_le_pow_right (by norm_num) (by norm_num)
  omega

/-! ThresholdEncryptionSetUp.py embedding (Threshold tree).  The polynomial
class is Threshold/Polynomial.py's CoefficientsPolynomial; the commitment
object is ThresholdEncryptionCommitment (its module is not among the
sources, so its shape is taken from the constructor call at the end of
generate_commitment; the encrypted partial private keys, which
generate_public_key never touches, are left out). -/

/-- CoefficientsPolynomial.__call__: Horner evaluation
`value = (value * x + coeff) % modulus` over the reversed coefficient
list. -/
def polyEval (modulus : Nat) (coefficients : List Nat) (x : Nat) : Nat :=
  coefficients.reverse.foldl (fun value coeff => (value * x + coeff) % modulus) 0

structure ThresholdCommitment where
  num_trustees : Nat
  threshold : Nat
  public_coefficients : List Nat
  partial_public_keys : List Nat
  deriving Repr, DecidableEq

/-- ThresholdEncryptionSetUp.generate_commitment with the polynomial's random
coefficient draws passed in (CoefficientsPolynomial.__init__ stores each
coefficient mod q): public coefficients g^c mod p, and for trustee j in
1..n the partial public key fragment g^P(j) mod p.  The per-trustee
encrypted partial private keys are omitted: generate_public_key does not
read them. -/
def generate_commitment (p g n k : Nat) (coeffs : List Nat) : ThresholdCommitment :=
  let q := (p - 1) / 2
  let stored := coeffs.map (fun c => c % q)
  { num_trustees := n
    threshold := k
    public_coefficients := stored.map (fun c => powMod g c p)
    partial_public_keys :=
      (List.range n).map (fun j => powMod g (polyEval q stored (j + 1)) p) }

/-- The first loop of generate_public_key: checks every commitment slot is
filled (else ThresholdEncryptionSetUpStateError) while folding
key = key * pow(commitment.public_coefficients[0], 2, p) % p; an empty
coefficient list indexes out of range. -/
def thresholdMainKeyLoop (p : Nat) :
    List (Option ThresholdCommitment) → Nat → Except PyErr Nat
  | [], key => .ok key
  | none :: _, _ => .error .stateError
  | some c :: tl, key =>
    match c.public_coefficients with
    | [] => .error .indexError
    | c0 :: _ => thresholdMainKeyLoop p tl ((key * powMod c0 2 p) % p)

/-- The inner fold of the second loop of generate_public_key for one trustee
(idx = trustee - 1): the product of commitment.partial_public_keys[idx]
mod p.  A None here is unreachable once the first loop has passed (in
Python it would be an AttributeError). -/
def thresholdPartialPubKey (p idx : Nat) :
    List (Option ThresholdCommitment) → Nat → Except PyErr Nat
  | [], acc => .ok acc
  | none :: _, _ => .error .noneTypeError
  | some c :: tl, acc =>
    if h : idx < c.partial_public_keys.length then
      thresholdPartialPubKey p idx tl ((acc * c.partial_public_keys[idx]) % p)
    else .error .indexError

/-- ThresholdEncryptionSetUp.generate_public_key: the main threshold public
value and the list of per-trustee partial public keys (trustee j at
position j - 1). -/
def generate_public_key (p n : Nat)
    (commitments : List (Option ThresholdCommitment)) :
    Except PyErr (Nat × List Nat) := do
  let key ← thresholdMainKeyLoop p commitments 1
  let partials ← (List.range n).mapM
    (fun idx => thresholdPartialPubKey p idx commitments 1)
  return (key, partials)

/-- The claim's formula for the partial public key of trustee j, written from
the spec's words: the product over all commitments i and coefficient
indexes k of (commitment_i.public_coefficients[k])^(2*j^k) mod p. -/
def specPartialPublicKey (p j : Nat) (commitments : List ThresholdCommitment) : Nat :=
  commitments.foldl
    (fun acc c =>
      (acc * (List.range c.public_coefficients.length).foldl
        (fun acc2 k => (acc2 * powMod (c.public_coefficients.getD k 0) (2 * j ^ k) p) % p)
        1) % p)
    1

/-- C3 counterexample.  One trustee, threshold 1, p = 7, g = 3, polynomial
P(x) = 1 over q = 3: the commitment's only public coefficient is
g^1 = 3.  The spec formula demands partial public key
3^(2*1^0) mod 7 = 2 = g^(2P(1)) for trustee 1, but generate_public_key
returns 3 = g^P(1): the source multiplies the stored fragments
commitment.partial_public_keys[j-1] without squaring (its own comment: "we
don't need to multiple P(i) by 2"), and never recomputes from the public
coefficients. -/
theorem C3_partial_key_spec_counterexample :
    generate_public_key 7 1 [some (generate_commitment 7 3 1 1 [1])] =
      .ok (2, [3]) ∧
    specPartialPublicKey 7 1 [generate_commitment 7 3 1 1 [1]] = 2 ∧
    (3 : Nat) ≠ 2 := by
  refine ⟨by rfl, by decide, by decide⟩

theorem powMod_add_mul (g p a b x : Nat) :
    (x * powMod g a p * powMod g b p) % p = (x * powMod g (a + b) p) % p := by
  unfold powMod
  rw [Nat.mul_mod_mod, Nat.mul_comm x (g ^ a % p), Nat.mul_assoc, Nat.mod_mul_mod,
    Nat.mul_mod_mod]
  congr 1
  rw [pow_add]
  ring

theorem mulMod_one_powMod (x g p : Nat) : (x * powMod g 0 p) % p = x % p := by
  unfold powMod
  rw [Nat.mul_mod_mod, pow_zero, Nat.mul_one]

theorem thresholdMainKeyLoop_honest (p g n k : Nat) :
    ∀ (cs : List (List Nat)) (acc : Nat),
      (∀ coeffs ∈ cs, coeffs ≠ []) →
      thresholdMainKeyLoop p
        (cs.map (fun coeffs => some (generate_commitment p g n k coeffs))) (acc % p) =
      .ok ((acc * powMod g
        (2 * (cs.map (fun coeffs => coeffs.headI % ((p - 1) / 2))).sum) p) % p) := by
  intro cs
  induction cs with
  | nil =>
    intro acc _
    show Except.ok (acc % p) = _
    rw [List.map_nil, List.sum_nil, Nat.mul_zero, mulMod_one_powMod]
  | cons coeffs tl ih =>
    intro acc hne
    obtain ⟨c0, crest, rfl⟩ :=
      List.exists_cons_of_ne_nil (hne _ (List.mem_cons_self _ _))
    show thresholdMainKeyLoop p _
      ((acc % p * powMod (powMod g (c0 % ((p - 1) / 2)) p) 2 p) % p) = _
    have hstep : (acc % p * powMod (powMod g (c0 % ((p - 1) / 2)) p) 2 p) % p =
        (acc * powMod g (2 * (c0 % ((p - 1) / 2))) p) % p := by
      unfold powMod
      conv_rhs => rw [Nat.mul_mod_mod]
      rw [← Nat.pow_mod, Nat.mod_mul_mod, Nat.mul_mod_mod, ← pow_mul,
        Nat.mul_comm (c0 % ((p - 1) / 2)) 2]
    rw [hstep, ih (acc * powMod g (2 * (c0 % ((p - 1) / 2))) p)
      (fun x hx => hne x (List.mem_cons_of_mem _ hx))]
    rw [powMod_add_mul]
    rw [List.map_cons, List.sum_cons, List.headI_cons, Nat.mul_add]

theorem thresholdPartialPubKey_honest (p g n k idx : Nat) (hidx : idx < n) :
    ∀ (cs : List (List Nat)) (acc : Nat),
      thresholdPartialPubKey p idx
        (cs.map (fun coeffs => some (generate_commitment p g n k coeffs))) (acc % p) =
      .ok ((acc * powMod g
        ((cs.map (fun coeffs =>
          polyEval ((p - 1) / 2) (coeffs.map (fun c => c % ((p - 1) / 2))) (idx + 1))).sum)
        p) % p) := by
  intro cs
  induction cs with
  | nil =>
    intro acc
    show Except.ok (acc % p) = _
    rw [List.map_nil, List.sum_nil, mulMod_one_powMod]
  | cons coeffs tl ih =>
    intro acc
    have hlen : ((generate_commitment p g n k coeffs).partial_public_keys).length = n := by
      simp [generate_commitment]
    have hh : idx < ((generate_commitment p g n k coeffs).partial_public_keys).length := by
      rw [hlen]; exact hidx
    have hget : ∀ (hb : idx < ((generate_commitment p g n k coeffs).partial_public_keys).length),
        (generate_commitment p g n k coeffs).partial_public_keys[idx] =
        powMod g (polyEval ((p - 1) / 2) (coeffs.map (fun c => c % ((p - 1) / 2))) (idx + 1)) p := by
      intro hb
      simp [generate_commitment]
    rw [List.map_cons]
    rw [thresholdPartialPubKey]
    rw [dif_pos hh]
    rw [hget hh, Nat.mod_mul_mod, ih, powMod_add_mul]
    rw [List.map_cons, List.sum_cons]

theorem mapM_range_ok {β : Type} (f : Nat → Except PyErr β) (g2 : Nat → β)
    (n : Nat) (h : ∀ idx < n, f idx = .ok (g2 idx)) :
    (List.range n).mapM f = .ok ((List.range n).map g2) := by
  have hgen : ∀ (l : List Nat), (∀ idx ∈ l, f idx = .ok (g2 idx)) →
      l.mapM f = .ok (l.map g2) := by
    intro l
    induction l with
    | nil => intro _; rfl
    | cons a tl ih =>
      intro hl
      rw [List.mapM_cons, hl a (List.mem_cons_self _ _), ih
        (fun x hx => hl x (List.mem_cons_of_mem _ hx))]
      rfl
  exact hgen _ (fun idx hidx => h idx (List.mem_range.mp hidx))

/-- C3 (amended closed form).  With all n commitment slots filled by
commitments honestly generated from coefficient draws cs (each list
nonempty, as new_random_polynomial guarantees), generate_public_key
succeeds; its main value is g^(2 * sum of the constant coefficients) mod p
(the spec's claimed product of squared first public coefficients), but
its partial public key for trustee j (at list position j - 1) is
g^(P(j)) mod p for P the summed polynomial — the product of the
commitments' stored partial_public_keys fragments, with no squaring and
with no reference to the public coefficients, not the spec's
g^(2*P(j)). -/
theorem C3_generate_public_key_closed_form
    (p g n k : Nat) (cs : List (List Nat)) (hp : 2 ≤ p)
    (hne : ∀ coeffs ∈ cs, coeffs ≠ []) :
    generate_public_key p n
      (cs.map (fun coeffs => some (generate_commitment p g n k coeffs))) =
    .ok ((powMod g (2 * (cs.map (fun coeffs => coeffs.headI % ((p - 1) / 2))).sum) p) % p,
      (List.range n).map (fun idx =>
        (powMod g
          ((cs.map (fun coeffs =>
            polyEval ((p - 1) / 2) (coeffs.map (fun c => c % ((p - 1) / 2))) (idx + 1))).sum)
          p) % p)) := by
  have h1p : (1 : Nat) % p = 1 := Nat.mod_eq_of_lt (by omega)
  unfold generate_public_key
  have hmain := thresholdMainKeyLoop_honest p g n k cs 1 hne
  rw [h1p, Nat.one_mul] at hmain
  have hpart := mapM_range_ok
    (fun idx => thresholdPartialPubKey p idx
      (cs.map (fun coeffs => some (generate_commitment p g n k coeffs))) 1)
    (fun idx =>
      (powMod g
        ((cs.map (fun coeffs =>
          polyEval ((p - 1) / 2) (coeffs.map (fun c => c % ((p - 1) / 2))) (idx + 1))).sum)
        p) % p)
    n ?_
  · simp only [bind, Except.bind]
    rw [hmain, hpart]
    rfl
  · intro idx hidx
    have hthis := thresholdPartialPubKey_honest p g n k idx hidx cs 1
    rw [h1p, Nat.one_mul] at hthis
    exact hthis

/-- Witness for the amended C3 at p = 7, g = 3, two trustees with threshold
1 and constant polynomials P1 = 1, P2 = 2. -/
theorem C3_generate_public_key_closed_form_witness :
    generate_public_key 7 2
      (([[1], [2]] : List (List Nat)).map
        (fun coeffs => some (generate_commitment 7 3 2 1 coeffs))) =
    .ok ((powMod 3
        (2 * (([[1], [2]] : List (List Nat)).map
          (fun coeffs => coeffs.headI % ((7 - 1) / 2))).sum) 7) % 7,
      (List.range 2).map (fun idx =>
        (powMod 3
          ((([[1], [2]] : List (List Nat)).map (fun coeffs =>
            polyEval ((7 - 1) / 2) (coeffs.map (fun c => c % ((7 - 1) / 2))) (idx + 1))).sum)
          7) % 7)) :=
  C3_generate_public_key_closed_form 7 3 2 1 [[1], [2]] (by decide) (by decide)

/-! ThresholdDecryptionCombinator.py embedding (Threshold tree), together
with the per-block generation side of ThresholdPrivateKey (the second
tree's version, which carries real proofs).  The StrongRandom draws and
SHA256 are passed as parameters. -/

/-- The helper _lagrange_coefficient: the Lagrange coefficient lambda_i(x)
over Z_q, computed with Python integer arithmetic (numerator and
denominator may be negative before the % q, which in Python — and in
Int.emod for a positive modulus — lands in [0, q)); the denominator is
inverted with Fermat (d^(q-2) mod q). -/
def lagrangeCoefficient (indexes : List Nat) (i x : Nat) (q : Nat) : Nat :=
  let numerator : Int :=
    indexes.foldl (fun acc j => if i == j then acc else acc * ((x : Int) - (j : Int))) 1
  let denominator : Int :=
    indexes.foldl (fun acc j => if i == j then acc else acc * ((i : Int) - (j : Int))) 1
  let num := numerator % (q : Int)
  let den := denominator % (q : Int)
  let inv_den := powMod den.toNat (q - 2) q
  (num.toNat * inv_den) % q

/-- The 1-based trustee indexes holding a registered partial decryption
(decrypt_to_bitstream's first loop).  A partial decryption is its list of
block values (the proofs are checked at registration time, not used
here). -/
def trusteeIndexes (n : Nat) (pds : List (Option (List Nat))) : List Nat :=
  (List.range n).filterMap (fun i =>
    match pds.getD i none with
    | none => none
    | some _ => some (i + 1))

/-- One iteration of decrypt_to_bitstream's inner loop over the selected
trustees: val = val * pow(pd_block, 2*lagrange_coeff, prime) % prime.
An unregistered trustee here would be a Python TypeError (unreachable:
only registered trustees are selected); a partial decryption shorter than
the ciphertext an IndexError (unreachable: add_partial_decryption checks
the block count). -/
def combineValStep (p q : Nat) (selected : List Nat)
    (pds : List (Option (List Nat))) (b : Nat) (val t : Nat) :
    Except PyErr Nat :=
  match pds.getD (t - 1) none with
  | none => .error .noneTypeError
  | some blocks =>
    match blocks[b]? with
    | none => .error .indexError
    | some pd => .ok ((val * powMod pd (2 * lagrangeCoefficient selected t 0 q) p) % p)

/-- One block of decrypt_to_bitstream: interpolate val from the selected
partial decryption blocks, then m = delta * val^(p-2) mod p. -/
def combineBlock (p q : Nat) (selected : List Nat)
    (pds : List (Option (List Nat))) (b : Nat) (delta : Nat) :
    Except PyErr Nat := do
  let val ← selected.foldlM (fun val t => combineValStep p q selected pds b val t) 1
  let inv_val := powMod val (p - 2) p
  return (delta * inv_val) % p

/-- The block loop of decrypt_to_bitstream: every decrypted block m is
written with put_num m block_size. -/
def thresholdDecryptBlocks (p q bs : Nat) (selected : List Nat)
    (pds : List (Option (List Nat))) :
    Nat → List (Nat × Nat) → List Bool → Except PyErr (List Bool)
  | _, [], acc => .ok acc
  | b, (_, delta) :: tl, acc => do
    let m ← combineBlock p q selected pds b delta
    let acc2 ← put_num acc m bs
    thresholdDecryptBlocks p q bs selected pds (b + 1) tl acc2

/-- ThresholdDecryptionCombinator.decrypt_to_bitstream.  The outcome of
random.shuffle on the registered trustee indexes is the parameter
shuffled (a permutation of trusteeIndexes n pds); the combinator uses its
first threshold entries. -/
def threshold_decrypt_to_bitstream (p nbits n threshold : Nat)
    (pds : List (Option (List Nat))) (ctBlocks : List (Nat × Nat))
    (shuffled : List Nat) : Except PyErr (List Bool) :=
  if (trusteeIndexes n pds).length < threshold then
    .error .insufficientPartialDecryptions
  else
    let selected := shuffled.take threshold
    let q := (p - 1) / 2
    thresholdDecryptBlocks p q (nbits - 1) selected pds 0 ctBlocks []

/-- One block of ThresholdPrivateKey.generate_partial_decryption (the second
tree: real proofs): value = gamma^key mod p, proof (a, b, t) from the
random draw s and the challenge c = SHA256(a, b, g^(2*key) mod p, value);
t = (s + 2*key*c) mod (p - 1). -/
def generate_pd_block (p g key gamma s : Nat)
    (sha : Nat → Nat → Nat → Nat → Nat) : Nat × Nat × Nat × Nat :=
  let value := powMod gamma key p
  let a := powMod g s p
  let b := powMod gamma s p
  let c := sha a b (powMod g (2 * key) p) value
  (value, a, b, (s + 2 * key * c) % (p - 1))

/-- The per-block proof verification inside add_partial_decryption (Threshold
tree): re-generate the challenge as SHA256(a, b, ppub_key, value) — with
ppub_key the partial public key STORED by the setup — and check
g^t = a * ppub^c mod p and gamma^t = b * value^(2c) mod p. -/
def verify_pd_block (p g ppub gamma : Nat)
    (sha : Nat → Nat → Nat → Nat → Nat) (value a b t : Nat) : Bool :=
  let c := sha a b ppub value
  (powMod g t p == (a * powMod ppub c p) % p) &&
    (powMod gamma t p == (b * powMod value (2 * c) p) % p)

theorem pow_mod_cycle (a n p : Nat) (h : a ^ n % p = 1 % p) (c : Nat) :
    a ^ c % p = a ^ (c % n) % p := by
  conv_lhs => rw [← Nat.div_add_mod c n]
  rw [pow_add, pow_mul]
  calc (a ^ n) ^ (c / n) * a ^ (c % n) % p
      = (a ^ n) ^ (c / n) % p * a ^ (c % n) % p := Nat.mod_mul_mod.symm
    _ = (a ^ n % p) ^ (c / n) % p * a ^ (c % n) % p := by rw [← Nat.pow_mod]
    _ = (1 % p) ^ (c / n) % p * a ^ (c % n) % p := by rw [h]
    _ = 1 ^ (c / n) % p * a ^ (c % n) % p := by rw [Nat.pow_mod, Nat.mod_mod_of_dvd _ dvd_rfl, ← Nat.pow_mod]
    _ = a ^ (c % n) % p := by rw [one_pow, Nat.mod_mul_mod, Nat.one_mul]

/-- C1 (record of the code bug).  Concrete instance p = 23, g = 5, one
trustee whose threshold private key is P(1) = 7, so the setup (see C3)
stores the partial public key g^P(1) = 5^7 mod 23, while proof generation
hashes and proves against g^(2*P(1)).  Even granting the verifier the SAME
challenge c the prover used (the constant hash; with real SHA256 the
challenges additionally differ, since the hash inputs g^(2P(j)) and the
stored g^P(j) differ), the verification of an honestly generated partial
decryption block (random draw s = 3, gamma = 2) succeeds only when
22 divides c: for every other challenge add_partial_decryption raises
InvalidPartialDecryptionProofError, so the end-to-end scenario of the
claim cannot reach combination. -/
theorem C1_stored_key_fails_proof_verification (c : Nat) :
    (match generate_pd_block 23 5 7 2 3 (fun _ _ _ _ => c) with
     | (value, a, b, t) =>
       verify_pd_block 23 5 (powMod 5 7 23) 2 (fun _ _ _ _ => c) value a b t) =
    decide (c % 22 = 0) := by
  have hgen : generate_pd_block 23 5 7 2 3 (fun _ _ _ _ => c) =
      (13, 10, 8, (3 + 14 * c) % 22) := by
    unfold generate_pd_block powMod
    norm_num
  rw [hgen]
  show ((powMod 5 ((3 + 14 * c) % 22) 23 ==
      (10 * powMod (powMod 5 7 23) c 23) % 23) &&
    (powMod 2 ((3 + 14 * c) % 22) 23 ==
      (8 * powMod 13 (2 * c) 23) % 23)) = decide (c % 22 = 0)
  unfold powMod
  have h57 : (5 : Nat) ^ 7 % 23 = 17 := by norm_num
  rw [h57]
  rw [pow_mod_cycle 17 22 23 (by norm_num) c]
  rw [pow_mod_cycle 13 22 23 (by norm_num) (2 * c)]
  have hT : (3 + 14 * c) % 22 = (3 + 14 * (c % 22)) % 22 := by
    conv_rhs => rw [Nat.add_mod, Nat.mul_mod 14 (c % 22),
      Nat.mod_mod_of_dvd _ dvd_rfl, ← Nat.mul_mod, ← Nat.add_mod]
  have h2c : (2 * c) % 22 = (2 * (c % 22)) % 22 := by
    conv_rhs => rw [Nat.mul_mod 2 (c % 22), Nat.mod_mod_of_dvd _ dvd_rfl,
      ← Nat.mul_mod]
  rw [hT, h2c]
  have hr : c % 22 < 22 := Nat.mod_lt _ (by norm_num)
  have hmain : ∀ r, r < 22 →
      (((5 : Nat) ^ ((3 + 14 * r) % 22) % 23 == (10 * (17 ^ r % 23)) % 23) &&
        ((2 : Nat) ^ ((3 + 14 * r) % 22) % 23 == (8 * (13 ^ ((2 * r) % 22) % 23)) % 23)) =
      decide (r = 0) := by decide
  rw [hmain (c % 22) hr]

theorem pow_eq_pow_of_modEq_of_pow_eq_one {M : Type} [Monoid M] (x : M) (d : Nat)
    (hd : x ^ d = 1) {e1 e2 : Nat} (h : e1 ≡ e2 [MOD d]) : x ^ e1 = x ^ e2 := by
  have h1 : x ^ e1 = x ^ (e1 % d) := by
    conv_lhs => rw [← Nat.div_add_mod e1 d]
    rw [pow_add, pow_mul, hd, one_pow, one_mul]
  have h2 : x ^ e2 = x ^ (e2 % d) := by
    conv_lhs => rw [← Nat.div_add_mod e2 d]
    rw [pow_add, pow_mul, hd, one_pow, one_mul]
  rw [h1, h2, show e1 % d = e2 % d from h]

theorem foldl_step_congr (p : Nat) (w : Nat → Nat) :
    ∀ (l : List Nat) {x y : Nat}, x ≡ y [MOD p] →
      l.foldl (fun v t => (v * w t) % p) x ≡
        l.foldl (fun v t => (v * w t) % p) y [MOD p] := by
  intro l
  induction l with
  | nil => intro x y h; exact h
  | cons t tl ih =>
    intro x y h
    exact ih ((Nat.mod_modEq _ p).trans ((h.mul_right _).trans (Nat.mod_modEq _ p).symm))

theorem foldl_val_modeq (p gamma : Nat) (f1 f2 : Nat → Nat) :
    ∀ (sub : List Nat) (val : Nat),
      sub.foldl (fun v t => (v * powMod (powMod gamma (f1 t) p) (f2 t) p) % p) val ≡
        val * gamma ^ ((sub.map (fun t => f1 t * f2 t)).sum) [MOD p] := by
  intro sub
  induction sub with
  | nil =>
    intro val
    simp only [List.foldl_nil, List.map_nil, List.sum_nil, pow_zero, Nat.mul_one]
    exact Nat.ModEq.refl val
  | cons t tl ih =>
    intro val
    have hw : powMod (powMod gamma (f1 t) p) (f2 t) p = gamma ^ (f1 t * f2 t) % p := by
      unfold powMod
      rw [← Nat.pow_mod, ← pow_mul]
    have hstep : (val * powMod (powMod gamma (f1 t) p) (f2 t) p) % p ≡
        val * gamma ^ (f1 t * f2 t) [MOD p] := by
      rw [hw, Nat.mul_mod_mod]
      exact Nat.mod_modEq _ p
    calc (t :: tl).foldl
          (fun v t => (v * powMod (powMod gamma (f1 t) p) (f2 t) p) % p) val
        = tl.foldl (fun v t => (v * powMod (powMod gamma (f1 t) p) (f2 t) p) % p)
            ((val * powMod (powMod gamma (f1 t) p) (f2 t) p) % p) := rfl
      _ ≡ tl.foldl (fun v t => (v * powMod (powMod gamma (f1 t) p) (f2 t) p) % p)
            (val * gamma ^ (f1 t * f2 t)) [MOD p] :=
          foldl_step_congr p _ tl hstep
      _ ≡ val * gamma ^ (f1 t * f2 t) *
            gamma ^ ((tl.map (fun t => f1 t * f2 t)).sum) [MOD p] :=
          ih (val * gamma ^ (f1 t * f2 t))
      _ = val * gamma ^ (((t :: tl).map (fun t => f1 t * f2 t)).sum) := by
          rw [List.map_cons, List.sum_cons, pow_add, Nat.mul_assoc]

theorem foldlM_combineValStep (p q : Nat) (S : List Nat)
    (pds : List (Option (List Nat))) (b gamma : Nat) (coeffs : List Nat)
    (hreg : ∀ t ∈ S, ∃ blocks, pds.getD (t - 1) none = some blocks ∧
       blocks[b]? = some (powMod gamma (polyEval q coeffs t) p)) :
    ∀ (sub : List Nat), (∀ t ∈ sub, t ∈ S) → ∀ (val : Nat),
      sub.foldlM (fun v t => combineValStep p q S pds b v t) val =
        .ok (sub.foldl (fun v t =>
          (v * powMod (powMod gamma (polyEval q coeffs t) p)
            (2 * lagrangeCoefficient S t 0 q) p) % p) val) := by
  intro sub
  induction sub with
  | nil => intro _ val; rfl
  | cons t tl ih =>
    intro hsub val
    obtain ⟨blocks, hb1, hb2⟩ := hreg t (hsub t (List.mem_cons_self _ _))
    rw [List.foldlM_cons]
    have hstep : combineValStep p q S pds b val t =
        .ok ((val * powMod (powMod gamma (polyEval q coeffs t) p)
          (2 * lagrangeCoefficient S t 0 q) p) % p) := by
      unfold combineValStep
      rw [hb1]
      show (match blocks[b]? with
        | none => Except.error PyErr.indexError
        | some pd =>
          Except.ok ((val * powMod pd (2 * lagrangeCoefficient S t 0 q) p) % p)) = _
      rw [hb2]
    rw [hstep]
    show tl.foldlM (fun v t => combineValStep p q S pds b v t) _ = _
    exact ih (fun x hx => hsub x (List.mem_cons_of_mem _ hx)) _

theorem combineBlock_eq (p q : Nat) (S : List Nat)
    (pds : List (Option (List Nat))) (b gamma delta : Nat) (coeffs : List Nat)
    (hreg : ∀ t ∈ S, ∃ blocks, pds.getD (t - 1) none = some blocks ∧
       blocks[b]? = some (powMod gamma (polyEval q coeffs t) p)) :
    combineBlock p q S pds b delta =
      .ok ((delta * powMod (S.foldl (fun v t =>
        (v * powMod (powMod gamma (polyEval q coeffs t) p)
          (2 * lagrangeCoefficient S t 0 q) p) % p) 1) (p - 2) p) % p) := by
  unfold combineBlock
  rw [foldlM_combineValStep p q S pds b gamma coeffs hreg S (fun _ h => h) 1]
  rfl

theorem foldl_skip_eq_prod (i : Nat) (x : Int) : ∀ (S : List Nat) (acc : Int),
    S.foldl (fun acc j => if i == j then acc else acc * (x - (j : Int))) acc =
      acc * ((S.filter (fun j => j != i)).map (fun (j : Nat) => x - (j : Int))).prod := by
  intro S
  induction S with
  | nil => intro acc; simp
  | cons j tl ih =>
    intro acc
    by_cases h : i = j
    · subst h
      rw [List.foldl_cons, if_pos (by simp), List.filter_cons_of_neg (by simp)]
      exact ih acc
    · rw [List.foldl_cons, if_neg (by simp [h]),
        List.filter_cons_of_pos (by simp [bne_iff_ne]; exact fun hc => h hc.symm)]
      rw [ih (acc * (x - (j : Int))), List.map_cons, List.prod_cons]
      ring

theorem polyEval_cons (q c : Nat) (tl : List Nat) (x : Nat) :
    polyEval q (c :: tl) x = (polyEval q tl x * x + c) % q := by
  unfold polyEval
  rw [List.reverse_cons, List.foldl_append]
  rfl

/-- The polynomial with the given (mod-q-reduced) natural coefficients, low
degree first, over ZMod q; used only to invoke Mathlib's Lagrange
interpolation. -/
noncomputable def hornerPoly (q : Nat) : List Nat → Polynomial (ZMod q)
  | [] => 0
  | c :: tl => Polynomial.C ((c : ZMod q)) + hornerPoly q tl * Polynomial.X

theorem hornerPoly_eval (q : Nat) (coeffs : List Nat) (x : Nat) :
    (hornerPoly q coeffs).eval ((x : ZMod q)) = ((polyEval q coeffs x : Nat) : ZMod q) := by
  induction coeffs with
  | nil => simp [hornerPoly, polyEval]
  | cons c tl ih =>
    rw [polyEval_cons, ZMod.natCast_mod, Nat.cast_add, Nat.cast_mul]
    show Polynomial.eval _ (Polynomial.C ((c : ZMod q)) + hornerPoly q tl * Polynomial.X) = _
    rw [Polynomial.eval_add, Polynomial.eval_C, Polynomial.eval_mul, Polynomial.eval_X, ih]
    ring

theorem hornerPoly_degree_lt (q : Nat) (hq : Nat.Prime q) (coeffs : List Nat) :
    (hornerPoly q coeffs).degree < ((coeffs.length : Nat) : WithBot Nat) := by
  haveI := Fact.mk hq
  induction coeffs with
  | nil =>
    show Polynomial.degree 0 < _
    rw [Polynomial.degree_zero]
    exact WithBot.bot_lt_coe _
  | cons c tl ih =>
    show Polynomial.degree (Polynomial.C ((c : ZMod q)) + hornerPoly q tl * Polynomial.X) < _
    refine lt_of_le_of_lt (Polynomial.degree_add_le _ _) (max_lt ?_ ?_)
    · refine lt_of_le_of_lt Polynomial.degree_C_le ?_
      show (0 : WithBot Nat) < (((tl.length + 1 : Nat)) : WithBot Nat)
      exact_mod_cast Nat.succ_pos tl.length
    · refine lt_of_le_of_lt (Polynomial.degree_mul_le _ _) ?_
      rw [Polynomial.degree_X]
      calc (hornerPoly q tl).degree + 1 < ((tl.length : Nat) : WithBot Nat) + 1 :=
            WithBot.add_lt_add_right (by simp) ih
        _ = (((tl.length + 1 : Nat)) : WithBot Nat) := by
            rw [Nat.cast_add, Nat.cast_one]


theorem filter_toFinset_erase (S : List Nat) (hnd : S.Nodup) (t : Nat) :
    (S.filter (fun j => j != t)).toFinset = S.toFinset.erase t := by
  ext a
  simp only [List.mem_toFinset, List.mem_filter, Finset.mem_erase, bne_iff_ne]
  exact and_comm

theorem int_prod_cast_filter (q : Nat) (S : List Nat) (hnd : S.Nodup) (t : Nat)
    (x : Int) :
    ((((S.filter (fun j => j != t)).map (fun (j : Nat) => x - (j : Int))).prod : ℤ) :
        ZMod q) =
      ∏ j ∈ S.toFinset.erase t, ((x : ZMod q) - ((j : Nat) : ZMod q)) := by
  rw [Int.cast_list_prod, List.map_map]
  have hfn : ((fun (z : Int) => ((z : ZMod q))) ∘ fun (j : Nat) => x - (j : Int)) =
      fun (j : Nat) => ((x : ZMod q) - ((j : Nat) : ZMod q)) := by
    funext j
    show (((x - (j : Int) : ℤ)) : ZMod q) = _
    push_cast
    ring
  rw [show ((Int.cast : Int → ZMod q) ∘ fun (j : Nat) => x - (j : Int)) =
    fun (j : Nat) => ((x : ZMod q) - ((j : Nat) : ZMod q)) from hfn]
  rw [← List.prod_toFinset _ (hnd.filter _), filter_toFinset_erase S hnd t]

theorem lagrangeCoefficient_cast (q : Nat) [hfq : Fact (Nat.Prime q)] (S : List Nat)
    (hnd : S.Nodup) (hSq : ∀ j ∈ S, j < q) (t : Nat) (ht : t ∈ S) :
    ((lagrangeCoefficient S t 0 q : Nat) : ZMod q) =
      Polynomial.eval (0 : ZMod q)
        (Lagrange.basis S.toFinset (fun (j : Nat) => ((j : ZMod q))) t) := by
  have hq : Nat.Prime q := hfq.out
  have hq0 : ((q : Int)) ≠ 0 := by exact_mod_cast hq.pos.ne'
  have hnum := foldl_skip_eq_prod t (((0 : Nat) : Int)) S 1
  have hden := foldl_skip_eq_prod t (((t : Nat) : Int)) S 1
  rw [one_mul] at hnum hden
  simp only [lagrangeCoefficient, powMod]
  rw [ZMod.natCast_mod, Nat.cast_mul, ZMod.natCast_mod, Nat.cast_pow]
  have cast_toNat : ∀ a : Int,
      (((a % (q : Int)).toNat : ℕ) : ZMod q) = ((a : ℤ) : ZMod q) := by
    intro a
    rw [← Int.cast_natCast, Int.toNat_of_nonneg (Int.emod_nonneg a hq0),
      ZMod.intCast_mod]
  rw [cast_toNat, cast_toNat, hnum, hden, int_prod_cast_filter q S hnd t,
    int_prod_cast_filter q S hnd t]
  push_cast
  -- the denominator product is invertible: the nodes are distinct mod q
  have hinj : ∀ a ∈ S, ∀ b ∈ S, ((a : ZMod q)) = ((b : ZMod q)) → a = b := by
    intro a ha b hb h
    have := congrArg ZMod.val h
    rwa [ZMod.val_natCast_of_lt (hSq a ha), ZMod.val_natCast_of_lt (hSq b hb)] at this
  have hden_ne : (∏ j ∈ S.toFinset.erase t,
      (((t : Nat) : ZMod q) - ((j : Nat) : ZMod q))) ≠ 0 := by
    rw [Finset.prod_ne_zero_iff]
    intro j hj
    have hjS : j ∈ S := List.mem_toFinset.mp (Finset.mem_of_mem_erase hj)
    have hjt : j ≠ t := Finset.ne_of_mem_erase hj
    exact sub_ne_zero.mpr (fun hc => hjt (hinj t ht j hjS hc).symm)
  -- Fermat: D^(q-2) = D⁻¹
  have hfermat : (∏ j ∈ S.toFinset.erase t,
      (((t : Nat) : ZMod q) - ((j : Nat) : ZMod q))) ^ (q - 2) =
      (∏ j ∈ S.toFinset.erase t,
      (((t : Nat) : ZMod q) - ((j : Nat) : ZMod q)))⁻¹ := by
    have h1 := ZMod.pow_card_sub_one_eq_one hden_ne
    have h2 : q - 1 = (q - 2) + 1 := by have := hq.two_le; omega
    rw [h2, pow_succ] at h1
    exact eq_inv_of_mul_eq_one_left h1
  rw [hfermat]
  -- the Lagrange basis evaluated at zero
  have hbasis : Polynomial.eval (0 : ZMod q)
      (Lagrange.basis S.toFinset (fun (j : Nat) => ((j : ZMod q))) t) =
      ∏ j ∈ S.toFinset.erase t,
        (((((t : Nat) : ZMod q) - ((j : Nat) : ZMod q))⁻¹) *
          ((0 : ZMod q) - ((j : Nat) : ZMod q))) := by
    show Polynomial.eval (0 : ZMod q)
      (∏ j ∈ S.toFinset.erase t, Lagrange.basisDivisor
        (((t : Nat) : ZMod q)) (((j : Nat) : ZMod q))) = _
    rw [Polynomial.eval_prod]
    refine Finset.prod_congr rfl ?_
    intro j _
    simp [Lagrange.basisDivisor]
  rw [hbasis, Finset.prod_mul_distrib, Finset.prod_inv_distrib]
  ring

theorem lagrange_sum_cast (q : Nat) [hfq : Fact (Nat.Prime q)] (S : List Nat)
    (hnd : S.Nodup) (hSq : ∀ j ∈ S, j < q) (coeffs : List Nat)
    (hdeg : coeffs.length ≤ S.length) :
    (((S.map (fun t => lagrangeCoefficient S t 0 q * polyEval q coeffs t)).sum : Nat) :
      ZMod q) = ((polyEval q coeffs 0 : Nat) : ZMod q) := by
  have hq : Nat.Prime q := hfq.out
  have hvs : Set.InjOn (fun (j : Nat) => ((j : ZMod q))) S.toFinset := by
    intro a ha b hb h
    have ha' : a ∈ S := List.mem_toFinset.mp ha
    have hb' : b ∈ S := List.mem_toFinset.mp hb
    have := congrArg ZMod.val h
    simpa [ZMod.val_natCast_of_lt (hSq a ha'), ZMod.val_natCast_of_lt (hSq b hb')]
      using this
  have hcard : S.toFinset.card = S.length := List.toFinset_card_of_nodup hnd
  have hdeglt : (hornerPoly q coeffs).degree < (S.toFinset.card : WithBot Nat) := by
    refine lt_of_lt_of_le (hornerPoly_degree_lt q hq coeffs) ?_
    rw [hcard]
    exact_mod_cast hdeg
  have hinterp := Lagrange.eq_interpolate hvs hdeglt
  have heval0 := congrArg (Polynomial.eval (0 : ZMod q)) hinterp
  rw [Lagrange.interpolate_apply, Polynomial.eval_finset_sum] at heval0
  simp only [Polynomial.eval_mul, Polynomial.eval_C] at heval0
  rw [Nat.cast_list_sum, List.map_map, ← List.sum_toFinset _ hnd]
  rw [show ((polyEval q coeffs 0 : ℕ) : ZMod q) =
    (hornerPoly q coeffs).eval (((0 : Nat) : ZMod q)) from (hornerPoly_eval q coeffs 0).symm]
  rw [Nat.cast_zero, heval0]
  refine Finset.sum_congr rfl ?_
  intro t htf
  show ((lagrangeCoefficient S t 0 q * polyEval q coeffs t : ℕ) : ZMod q) = _
  rw [Nat.cast_mul, lagrangeCoefficient_cast q S hnd hSq t (List.mem_toFinset.mp htf),
    ← hornerPoly_eval]
  ring

/-- Lagrange interpolation at zero, at the Nat level: for distinct sample
points in [1, q), the code's Lagrange-weighted sum of polynomial values
is congruent mod q to the polynomial's value at 0. -/
theorem lagrange_sum_modeq (q : Nat) (hq : Nat.Prime q) (S : List Nat)
    (hnd : S.Nodup) (hSq : ∀ j ∈ S, j < q) (coeffs : List Nat)
    (hdeg : coeffs.length ≤ S.length) :
    (S.map (fun t => lagrangeCoefficient S t 0 q * polyEval q coeffs t)).sum ≡
      polyEval q coeffs 0 [MOD q] := by
  haveI := Fact.mk hq
  exact (ZMod.natCast_eq_natCast_iff _ _ _).mp (lagrange_sum_cast q S hnd hSq coeffs hdeg)

theorem list_sum_map_two_mul (l : List Nat) (f : Nat → Nat) :
    (l.map (fun t => 2 * f t)).sum = 2 * (l.map f).sum := by
  induction l with
  | nil => simp
  | cons a tl ih => simp [ih, Nat.mul_add]

theorem combineBlock_oob (p q : Nat) (S : List Nat)
    (pds : List (Option (List Nat))) (j delta L : Nat) (hS : S ≠ [])
    (hreg : ∀ t ∈ S, ∃ blocks, pds.getD (t - 1) none = some blocks ∧
      blocks.length = L)
    (hj : L ≤ j) :
    combineBlock p q S pds j delta = .error .indexError := by
  obtain ⟨t, tl, rfl⟩ := List.exists_cons_of_ne_nil hS
  obtain ⟨blocks, hb, hlen⟩ := hreg t (List.mem_cons_self _ _)
  unfold combineBlock
  rw [List.foldlM_cons]
  have hstep : combineValStep p q (t :: tl) pds j 1 t = .error .indexError := by
    unfold combineValStep
    rw [hb]
    show (match blocks[j]? with
      | none => Except.error PyErr.indexError
      | some pd =>
        Except.ok ((1 * powMod pd (2 * lagrangeCoefficient (t :: tl) t 0 q) p) % p)) = _
    rw [List.getElem?_eq_none (by omega)]
  rw [hstep]
  rfl

theorem powMod_congr_base {a b : Nat} (e p : Nat) (h : a ≡ b [MOD p]) :
    powMod a e p = powMod b e p := by
  unfold powMod
  unfold Nat.ModEq at h
  rw [Nat.pow_mod, h, ← Nat.pow_mod]

theorem combineBlock_subsets_eq (q : Nat) (hq : Nat.Prime q)
    (hp : Nat.Prime (2 * q + 1)) (coeffs : List Nat)
    (pds : List (Option (List Nat))) (b gamma delta : Nat)
    (hgam : ¬ (2 * q + 1) ∣ gamma)
    (S1 S2 : List Nat) (hnd1 : S1.Nodup) (hnd2 : S2.Nodup)
    (hq1 : ∀ j ∈ S1, j < q) (hq2 : ∀ j ∈ S2, j < q)
    (hlen1 : coeffs.length ≤ S1.length) (hlen2 : coeffs.length ≤ S2.length)
    (hreg1 : ∀ t ∈ S1, ∃ blocks, pds.getD (t - 1) none = some blocks ∧
      blocks[b]? = some (powMod gamma (polyEval q coeffs t) (2 * q + 1)))
    (hreg2 : ∀ t ∈ S2, ∃ blocks, pds.getD (t - 1) none = some blocks ∧
      blocks[b]? = some (powMod gamma (polyEval q coeffs t) (2 * q + 1))) :
    combineBlock (2 * q + 1) q S1 pds b delta =
      combineBlock (2 * q + 1) q S2 pds b delta := by
  haveI := Fact.mk hp
  rw [combineBlock_eq (2 * q + 1) q S1 pds b gamma delta coeffs hreg1,
    combineBlock_eq (2 * q + 1) q S2 pds b gamma delta coeffs hreg2]
  have hfold : ∀ (S : List Nat),
      S.foldl (fun v t =>
        (v * powMod (powMod gamma (polyEval q coeffs t) (2 * q + 1))
          (2 * lagrangeCoefficient S t 0 q) (2 * q + 1)) % (2 * q + 1)) 1 ≡
      gamma ^ ((S.map (fun t =>
        polyEval q coeffs t * (2 * lagrangeCoefficient S t 0 q))).sum)
        [MOD 2 * q + 1] := by
    intro S
    have := foldl_val_modeq (2 * q + 1) gamma (fun t => polyEval q coeffs t)
      (fun t => 2 * lagrangeCoefficient S t 0 q) S 1
    rwa [Nat.one_mul] at this
  have hexp : ∀ (S : List Nat), S.Nodup → (∀ j ∈ S, j < q) →
      coeffs.length ≤ S.length →
      (S.map (fun t => polyEval q coeffs t * (2 * lagrangeCoefficient S t 0 q))).sum =
        2 * (S.map (fun t => lagrangeCoefficient S t 0 q * polyEval q coeffs t)).sum := by
    intro S _ _ _
    rw [← list_sum_map_two_mul S (fun t => lagrangeCoefficient S t 0 q * polyEval q coeffs t)]
    congr 1
    refine List.map_congr_left ?_
    intro t _
    ring
  have hmod : (S1.map (fun t =>
      polyEval q coeffs t * (2 * lagrangeCoefficient S1 t 0 q))).sum ≡
    (S2.map (fun t =>
      polyEval q coeffs t * (2 * lagrangeCoefficient S2 t 0 q))).sum [MOD 2 * q] := by
    rw [hexp S1 hnd1 hq1 hlen1, hexp S2 hnd2 hq2 hlen2]
    exact Nat.ModEq.mul_left' 2
      ((lagrange_sum_modeq q hq S1 hnd1 hq1 coeffs hlen1).trans
        (lagrange_sum_modeq q hq S2 hnd2 hq2 coeffs hlen2).symm)
  have hgpow : gamma ^ ((S1.map (fun t =>
      polyEval q coeffs t * (2 * lagrangeCoefficient S1 t 0 q))).sum) ≡
    gamma ^ ((S2.map (fun t =>
      polyEval q coeffs t * (2 * lagrangeCoefficient S2 t 0 q))).sum)
      [MOD 2 * q + 1] := by
    have hg0 : ((gamma : ZMod (2 * q + 1))) ≠ 0 := fun h =>
      hgam ((ZMod.natCast_zmod_eq_zero_iff_dvd _ _).mp h)
    have hone : ((gamma : ZMod (2 * q + 1))) ^ (2 * q) = 1 := by
      have := ZMod.pow_card_sub_one_eq_one hg0
      rwa [show 2 * q + 1 - 1 = 2 * q from by omega] at this
    have := pow_eq_pow_of_modEq_of_pow_eq_one ((gamma : ZMod (2 * q + 1)))
      (2 * q) hone hmod
    have hcast : ((gamma ^ ((S1.map (fun t =>
        polyEval q coeffs t * (2 * lagrangeCoefficient S1 t 0 q))).sum) : ℕ) :
          ZMod (2 * q + 1)) =
        ((gamma ^ ((S2.map (fun t =>
        polyEval q coeffs t * (2 * lagrangeCoefficient S2 t 0 q))).sum) : ℕ) :
          ZMod (2 * q + 1)) := by
      push_cast
      exact this
    exact (ZMod.natCast_eq_natCast_iff _ _ _).mp hcast
  have hv : S1.foldl (fun v t =>
      (v * powMod (powMod gamma (polyEval q coeffs t) (2 * q + 1))
        (2 * lagrangeCoefficient S1 t 0 q) (2 * q + 1)) % (2 * q + 1)) 1 ≡
    S2.foldl (fun v t =>
      (v * powMod (powMod gamma (polyEval q coeffs t) (2 * q + 1))
        (2 * lagrangeCoefficient S2 t 0 q) (2 * q + 1)) % (2 * q + 1)) 1
      [MOD 2 * q + 1] :=
    ((hfold S1).trans hgpow).trans (hfold S2).symm
  rw [powMod_congr_base (2 * q + 1 - 2) (2 * q + 1) hv]

theorem thresholdDecryptBlocks_congr (p q bs : Nat) (S1 S2 : List Nat)
    (pds : List (Option (List Nat)))
    (h : ∀ j delta, combineBlock p q S1 pds j delta =
      combineBlock p q S2 pds j delta) :
    ∀ (tl : List (Nat × Nat)) (b : Nat) (acc : List Bool),
      thresholdDecryptBlocks p q bs S1 pds b tl acc =
        thresholdDecryptBlocks p q bs S2 pds b tl acc := by
  intro tl
  induction tl with
  | nil => intro b acc; rfl
  | cons gd tl ih =>
    intro b acc
    obtain ⟨g, d⟩ := gd
    simp only [thresholdDecryptBlocks]
    rw [h b d]
    rcases hcb : combineBlock p q S2 pds b d with e | m
    · simp [bind, Except.bind]
    · simp only [bind, Except.bind]
      rcases put_num acc m bs with e2 | acc2
      · rfl
      · exact ih (b + 1) acc2

theorem mem_trusteeIndexes {n : Nat} {pds : List (Option (List Nat))} {t : Nat}
    (h : t ∈ trusteeIndexes n pds) :
    1 ≤ t ∧ t ≤ n ∧ ∃ bl, pds.getD (t - 1) none = some bl := by
  unfold trusteeIndexes at h
  obtain ⟨i, hi, hsome⟩ := List.mem_filterMap.mp h
  rcases hpd : pds.getD i none with _ | bl
  · rw [hpd] at hsome; cases hsome
  · rw [hpd] at hsome
    cases hsome
    exact ⟨by omega, by have := List.mem_range.mp hi; omega, bl, hpd⟩

theorem trusteeIndexes_nodup (n : Nat) (pds : List (Option (List Nat))) :
    (trusteeIndexes n pds).Nodup := by
  unfold trusteeIndexes
  refine List.Nodup.filterMap ?_ (List.nodup_range n)
  intro a b c hc1 hc2
  rcases hpa : pds.getD a none with _ | bla
  · rw [hpa] at hc1; cases hc1
  rcases hpb : pds.getD b none with _ | blb
  · rw [hpb] at hc2; cases hc2
  rw [hpa] at hc1
  rw [hpb] at hc2
  cases hc1
  cases hc2
  rfl

/-- C7.  Threshold-subset independence: over a safe-prime group p = 2q + 1,
with n < q trustees, a threshold polynomial of degree < k (coefficient
list of length at most k, as generate_commitment produces), honestly
generated partial decryptions (block value gamma^P(t) for trustee t) for
every registered trustee, and ciphertext gammas invertible mod p, any two
outcomes of the combinator's random.shuffle — any two orderings s1, s2 of
the registered trustee indexes, from which the combinator keeps the first
k — give the identical decrypt_to_bitstream result, error or not. -/
theorem C7_threshold_subset_independence
    (q n k nbits : Nat) (hq : Nat.Prime q) (hp : Nat.Prime (2 * q + 1))
    (hn : n < q) (hk : 0 < k)
    (coeffs : List Nat) (hdeg : coeffs.length ≤ k)
    (pds : List (Option (List Nat))) (ctBlocks : List (Nat × Nat))
    (hhonest : ∀ t ∈ trusteeIndexes n pds, ∀ blocks,
      pds.getD (t - 1) none = some blocks →
      List.Forall₂ (fun pd ctb =>
        pd = powMod (Prod.fst ctb) (polyEval q coeffs t) (2 * q + 1)) blocks ctBlocks)
    (hgamma : ∀ ctb ∈ ctBlocks, ¬ (2 * q + 1) ∣ Prod.fst ctb)
    (s1 s2 : List Nat)
    (hperm1 : s1.Perm (trusteeIndexes n pds))
    (hperm2 : s2.Perm (trusteeIndexes n pds)) :
    threshold_decrypt_to_bitstream (2 * q + 1) nbits n k pds ctBlocks s1 =
      threshold_decrypt_to_bitstream (2 * q + 1) nbits n k pds ctBlocks s2 := by
  unfold threshold_decrypt_to_bitstream
  by_cases hins : (trusteeIndexes n pds).length < k
  · rw [if_pos hins, if_pos hins]
  rw [if_neg hins, if_neg hins]
  show thresholdDecryptBlocks (2 * q + 1) ((2 * q + 1 - 1) / 2) (nbits - 1)
      (s1.take k) pds 0 ctBlocks [] =
    thresholdDecryptBlocks (2 * q + 1) ((2 * q + 1 - 1) / 2) (nbits - 1)
      (s2.take k) pds 0 ctBlocks []
  rw [show (2 * q + 1 - 1) / 2 = q from by omega]
  have hfacts : ∀ (s : List Nat), s.Perm (trusteeIndexes n pds) →
      (s.take k).Nodup ∧ (∀ j ∈ s.take k, j < q) ∧ (s.take k).length = k ∧
      (∀ t ∈ s.take k, t ∈ trusteeIndexes n pds) := by
    intro s hperm
    have hsub : ∀ t ∈ s.take k, t ∈ trusteeIndexes n pds := fun t ht =>
      hperm.mem_iff.mp (List.take_subset _ _ ht)
    refine ⟨?_, ?_, ?_, hsub⟩
    · exact List.Nodup.sublist (List.take_sublist _ _)
        (hperm.nodup_iff.mpr (trusteeIndexes_nodup n pds))
    · exact fun j hj => lt_of_le_of_lt (mem_trusteeIndexes (hsub j hj)).2.1 hn
    · rw [List.length_take]
      have := hperm.length_eq
      omega
  obtain ⟨hnd1, hq1, hlen1, hsub1⟩ := hfacts s1 hperm1
  obtain ⟨hnd2, hq2, hlen2, hsub2⟩ := hfacts s2 hperm2
  have hreglen : ∀ t ∈ trusteeIndexes n pds, ∃ bl,
      pds.getD (t - 1) none = some bl ∧ bl.length = ctBlocks.length := by
    intro t ht
    obtain ⟨_, _, bl, hbl⟩ := mem_trusteeIndexes ht
    exact ⟨bl, hbl, (hhonest t ht bl hbl).length_eq⟩
  have hcb : ∀ j delta, combineBlock (2 * q + 1) q (s1.take k) pds j delta =
      combineBlock (2 * q + 1) q (s2.take k) pds j delta := by
    intro j delta
    by_cases hjlt : j < ctBlocks.length
    · have hreg : ∀ (s : List Nat), (∀ t ∈ s, t ∈ trusteeIndexes n pds) →
          ∀ t ∈ s, ∃ blocks, pds.getD (t - 1) none = some blocks ∧
            blocks[j]? = some (powMod (Prod.fst (ctBlocks.get ⟨j, hjlt⟩))
              (polyEval q coeffs t) (2 * q + 1)) := by
        intro s hsubs t ht
        obtain ⟨_, _, bl, hbl⟩ := mem_trusteeIndexes (hsubs t ht)
        have hf := hhonest t (hsubs t ht) bl hbl
        have hjbl : j < bl.length := by
          rw [hf.length_eq]
          exact hjlt
        refine ⟨bl, hbl, ?_⟩
        rw [List.getElem?_eq_getElem hjbl]
        exact congrArg some
          ((List.get_eq_getElem bl ⟨j, hjbl⟩).symm.trans (hf.get hjbl hjlt))
      exact combineBlock_subsets_eq q hq hp coeffs pds j
        (Prod.fst (ctBlocks.get ⟨j, hjlt⟩)) delta
        (hgamma _ (List.get_mem ctBlocks j hjlt))
        (s1.take k) (s2.take k) hnd1 hnd2 hq1 hq2
        (by rw [hlen1]; exact hdeg) (by rw [hlen2]; exact hdeg)
        (hreg _ hsub1) (hreg _ hsub2)
    · have hne : ∀ (s : List Nat), (s.take k).length = k → s.take k ≠ [] := by
        intro s hl hcon
        rw [hcon] at hl
        simp at hl
        omega
      rw [combineBlock_oob (2 * q + 1) q (s1.take k) pds j delta ctBlocks.length
          (hne s1 hlen1) (fun t ht => hreglen t (hsub1 t ht)) (by omega),
        combineBlock_oob (2 * q + 1) q (s2.take k) pds j delta ctBlocks.length
          (hne s2 hlen2) (fun t ht => hreglen t (hsub2 t ht)) (by omega)]
  exact thresholdDecryptBlocks_congr (2 * q + 1) q (nbits - 1)
    (s1.take k) (s2.take k) pds hcb ctBlocks 0 []

/-- Witness for C7: p = 23 (q = 11), two trustees with threshold 2,
polynomial P(x) = 3 + 4x over Z_11, one ciphertext block with gamma = 2;
the two shuffle outcomes [1, 2] and [2, 1] select the two possible
subsets. -/
theorem C7_threshold_subset_independence_witness :
    threshold_decrypt_to_bitstream 23 5 2 2
      [some [13], some [1]] [(2, 5)] [1, 2] =
    threshold_decrypt_to_bitstream 23 5 2 2
      [some [13], some [1]] [(2, 5)] [2, 1] :=
  C7_threshold_subset_independence 11 2 2 5 (by norm_num) (by norm_num)
    (by decide) (by decide) [3, 4] (by decide)
    [some [13], some [1]] [(2, 5)]
    (by
      intro t ht blocks hbl
      have htl : trusteeIndexes 2 [some [13], some [1]] = [1, 2] := by decide
      rw [htl] at ht
      fin_cases ht
      · have hb : blocks = [13] :=
          (Option.some.inj (show (some [13] : Option (List Nat)) = some blocks from hbl)).symm
        subst hb
        exact List.Forall₂.cons (by decide) List.Forall₂.nil
      · have hb : blocks = [1] :=
          (Option.some.inj (show (some [1] : Option (List Nat)) = some blocks from hbl)).symm
        subst hb
        exact List.Forall₂.cons (by decide) List.Forall₂.nil)
    (by decide) [1, 2] [2, 1] (by decide) (by decide)

end PVC
